import Mathlib

/-!
The vendored chess core of slackchess (`bitboard.go`, `position.go`).

A shallow embedding of the bitboard value type and of the position transition
function, followed by theorems about them.

Conventions of the embedding:

* a Go `string` is a `List Char` (the strings handled here are ASCII);
* a Go `uint64` is a `Nat`, reduced `% 2 ^ 64` wherever the Go operation can
  leave the 64-bit range;
* a Go `int` is an `Int`, wrapped to 64 bits by `wrapInt` where it is incremented;
* a Go panic is the `none` of an `Option`.
-/

namespace Chess

/-! ## Squares and square maps -/

/-- Modelled from the spec: the constant `numOfSquaresInBoard` is declared outside the two
source files; the board has 64 cells. -/
def numOfSquaresInBoard : Nat := 64

/-- Modelled from the spec: the type `Square` is declared outside the two source files. It is
an integer identifier, in `[0,64)` for a real cell, with a sentinel outside that range. -/
abbrev Square := Int

/-- A Go `map[Square]bool`, as an association list. -/
abbrev SquareMap := List (Square × Bool)

/-- The Go lookup `m[sq]`: the stored value, `false` for an absent key. -/
def SquareMap.get (m : SquareMap) (sq : Square) : Bool :=
  (m.lookup sq).getD false

/-- The Go assignment `m[sq] = v`: replaces the entry of `sq`. -/
def SquareMap.set (m : SquareMap) (sq : Square) (v : Bool) : SquareMap :=
  (sq, v) :: m.filter (fun e => e.1 != sq)

/-! ## The Go library functions used by `bitboard.go` -/

/-- The loop of `strconv.ParseUint(s, 2, 64)`: every byte must be a digit below the base,
the accumulator must stay below the cutoff `2 ^ 63` before it is doubled, and the new value
must not exceed `2 ^ 64 - 1`. -/
def parseUintLoop : List Char → Nat → Option Nat
  | [], n => some n
  | c :: cs, n =>
    if c = '0' ∨ c = '1' then
      if n ≥ 2 ^ 63 then none
      else
        let n1 := n * 2 + (if c = '1' then 1 else 0)
        if n1 > 2 ^ 64 - 1 then none else parseUintLoop cs n1
    else none

/-- The call `strconv.ParseUint(s, 2, 64)`; `none` is any of its errors. -/
def ParseUint (s : List Char) : Option Nat :=
  if s = [] then none else parseUintLoop s 0

/-- One binary digit of `strconv.FormatUint`. -/
def digitChar (d : Nat) : Char := if d = 1 then '1' else '0'

/-- The loop of `strconv.FormatUint(u, 2)`: digits are written from the least significant
one while `u >= 2`, and the last `u < 2` is written in front. -/
def formatBits (u : Nat) (acc : List Char) : List Char :=
  if h : 2 ≤ u then formatBits (u / 2) (digitChar (u % 2) :: acc)
  else digitChar u :: acc
termination_by u
decreasing_by omega

/-- The call `strconv.FormatUint(u, 2)`. -/
def FormatUint (u : Nat) : List Char := formatBits u []

/-- The Go slice expression `s[lo:hi]` on a string; it panics outside `lo <= hi <= len(s)`. -/
def sliceStr (s : List Char) (lo hi : Nat) : Option (List Char) :=
  if lo ≤ hi ∧ hi ≤ s.length then some ((s.drop lo).take (hi - lo)) else none

/-! ## `bitboard.go` -/

/-- The type `bitboard` is a `uint64`: a natural number below `2 ^ 64`. -/
abbrev bitboard := Nat

/-- The function `newBitboard`: one character per square 0..63, then `strconv.ParseUint`; `none` is the
panic branch. -/
def newBitboard (m : SquareMap) : Option bitboard :=
  let s := (List.range numOfSquaresInBoard).foldl
    (fun (s : List Char) (sq : Nat) => if m.get (sq : Int) then s ++ ['1'] else s ++ ['0']) []
  ParseUint s

/-- The method `bitboard.Occupied`: `(uint64(b) >> uint64(63-sq) & 1) == 1`. -/
def bitboard.Occupied (b : bitboard) (sq : Square) : Bool :=
  ((b % 2 ^ 64) >>> ((63 - sq) % 2 ^ 64).toNat) &&& 1 == 1

/-- The method `bitboard.String`: the binary digits, left-padded with zeros to 64 characters;
`strings.Repeat` panics on a negative count. -/
def bitboard.String (b : bitboard) : Option (List Char) :=
  let s := FormatUint (b % 2 ^ 64)
  if s.length ≤ numOfSquaresInBoard then
    some (List.replicate (numOfSquaresInBoard - s.length) '0' ++ s)
  else none

/-- The method `bitboard.Mapping`: an entry `true` for every square whose character is `1`. -/
def bitboard.Mapping (b : bitboard) : Option SquareMap :=
  (bitboard.String b).bind fun s =>
    (List.range numOfSquaresInBoard).foldl
      (fun (acc : Option SquareMap) (sq : Nat) =>
        acc.bind fun m =>
          (sliceStr s sq (sq + 1)).map fun c =>
            if c = ['1'] then m.set (sq : Int) true else m)
      (some [])

/-- The loop of `bitboard.Reverse`, with `k` iterations left:
`u = (u << 1) + (uint64(b) & 1); b = b >> 1`. -/
def reverseLoop : Nat → Nat → Nat → Nat
  | 0, u, _ => u
  | k + 1, u, b => reverseLoop k (((u <<< 1) % 2 ^ 64 + ((b % 2 ^ 64) &&& 1)) % 2 ^ 64) (b >>> 1)

/-- The method `bitboard.Reverse`: 64 iterations of the loop from `u = 0`. -/
def bitboard.Reverse (b : bitboard) : bitboard := reverseLoop 64 0 b

/-! ## The Go library functions used by `position.go` -/

/-- The call `strings.Replace(s, old, new, -1)` for a non-empty `old`: every non-overlapping
occurrence of `old`, from the left, is replaced by `new`. The counter is the number of
characters of a matched occurrence still to skip. -/
def replaceLoop (old new : List Char) : List Char → Nat → List Char
  | [], _ => []
  | _ :: cs, skip + 1 => replaceLoop old new cs skip
  | c :: cs, 0 =>
    if old.isPrefixOf (c :: cs) then new ++ replaceLoop old new cs (old.length - 1)
    else c :: replaceLoop old new cs 0

/-- The call `strings.Replace(s, old, new, -1)`. -/
def Replace (s old new : List Char) : List Char := replaceLoop old new s 0

/-- The call `strings.Contains(s, substr)`. -/
def Contains : List Char → List Char → Bool
  | [], substr => substr.isEmpty
  | c :: cs, substr => substr.isPrefixOf (c :: cs) || Contains cs substr

/-- The call `strings.ToUpper(s)` on an ASCII string. -/
def ToUpper (s : List Char) : List Char := s.map Char.toUpper

/-- A Go `int` after an arithmetic operation: the value wrapped to 64 bits, two's complement. -/
def wrapInt (x : Int) : Int := (x + 2 ^ 63) % 2 ^ 64 - 2 ^ 63

/-! ## The declarations `position.go` uses from the rest of the package -/

/-- Modelled from the spec: the type `Color` is declared outside the two source files; it is
one of White and Black. -/
inductive Color where
  | White
  | Black
  deriving DecidableEq, Repr

/-- Modelled from the spec: `Color.Other` is declared outside the two source files; it returns
the opposite value. -/
def Color.Other : Color → Color
  | Color.White => Color.Black
  | Color.Black => Color.White

/-- Modelled from the spec: the type `PieceType` is declared outside the two source files. -/
inductive PieceType where
  | King
  | Queen
  | Rook
  | Bishop
  | Knight
  | Pawn
  | NoPieceType
  deriving DecidableEq, Repr

/-- Modelled from the spec: the type `Piece` is declared outside the two source files; it is one
of the twelve (piece type × color) values, or no piece. -/
inductive Piece where
  | WhiteKing
  | WhiteQueen
  | WhiteRook
  | WhiteBishop
  | WhiteKnight
  | WhitePawn
  | BlackKing
  | BlackQueen
  | BlackRook
  | BlackBishop
  | BlackKnight
  | BlackPawn
  | NoPiece
  deriving DecidableEq, Repr

/-- Modelled from the spec: `Piece.Type` is declared outside the two source files; it is the
piece type of the (piece type × color) value. -/
def Piece.Type : Piece → PieceType
  | Piece.WhiteKing => PieceType.King
  | Piece.WhiteQueen => PieceType.Queen
  | Piece.WhiteRook => PieceType.Rook
  | Piece.WhiteBishop => PieceType.Bishop
  | Piece.WhiteKnight => PieceType.Knight
  | Piece.WhitePawn => PieceType.Pawn
  | Piece.BlackKing => PieceType.King
  | Piece.BlackQueen => PieceType.Queen
  | Piece.BlackRook => PieceType.Rook
  | Piece.BlackBishop => PieceType.Bishop
  | Piece.BlackKnight => PieceType.Knight
  | Piece.BlackPawn => PieceType.Pawn
  | Piece.NoPiece => PieceType.NoPieceType

/-- Modelled from the spec: the type `MoveTag` is declared outside the two source files; a move
carries optional tags such as Capture. -/
inductive MoveTag where
  | Capture
  | Other (id : Nat)
  deriving DecidableEq, Repr

/-- Modelled from the spec: the type `Move` is declared outside the two source files; it is a
record of a source square, a destination square, an optional promotion piece and tags. -/
structure Move where
  s1 : Square
  s2 : Square
  promo : PieceType
  tags : List MoveTag
  deriving DecidableEq, Repr

/-- Modelled from the spec: `Move.HasTag` is declared outside the two source files; it tells
whether the move carries the tag. -/
def Move.HasTag (m : Move) (tag : MoveTag) : Bool := m.tags.contains tag

/-- Modelled from the spec: the type `Board` is declared outside the two source files; it
assigns a piece (or none) to every square and keeps the aggregate bitboards of the
white-occupied and of the black-occupied squares. -/
structure Board where
  squares : Square → Piece
  whiteSqs : bitboard
  blackSqs : bitboard

/-- Modelled from the spec: `Board.piece` is declared outside the two source files; it is the
piece standing on the square. -/
def Board.piece (b : Board) (sq : Square) : Piece := b.squares sq

/-- Modelled from the spec: the sentinel `NoSquare` is declared outside the two source files;
it is a reserved value outside `[0,64)`. -/
def NoSquare : Square := -1

/-- Modelled from the spec: the square constants are declared outside the two source files;
squares are numbered rank-major from a1 = 0, so a1, h1, a8, h8 are 0, 7, 56, 63. -/
def A1 : Square := 0

/-- Modelled from the spec: see `A1`. -/
def H1 : Square := 7

/-- Modelled from the spec: see `A1`. -/
def A8 : Square := 56

/-- Modelled from the spec: see `A1`. -/
def H8 : Square := 63

/-- Modelled from the spec: the table `bbSquares` is declared outside the two source files;
entry `sq` is the bitboard holding square `sq` alone (bit `sq` counted from the most
significant bit). Indexing it outside `[0,64)` panics. -/
def bbSquares (sq : Square) : Option bitboard :=
  if 0 ≤ sq ∧ sq < 64 then some (2 ^ (63 - sq.toNat)) else none

/-- Modelled from the spec: the rank masks are declared outside the two source files; the mask
of the rank with 0-based index `r` holds the eight squares `8 * r, …, 8 * r + 7`. -/
def bbRank (r : Nat) : bitboard := 255 * 2 ^ (8 * (7 - r))

/-- Modelled from the spec: see `bbRank`. -/
def bbRank2 : bitboard := bbRank 1

/-- Modelled from the spec: see `bbRank`. -/
def bbRank4 : bitboard := bbRank 3

/-- Modelled from the spec: see `bbRank`. -/
def bbRank5 : bitboard := bbRank 4

/-- Modelled from the spec: see `bbRank`. -/
def bbRank7 : bitboard := bbRank 6

/-- Modelled from the spec: the type `Method` is declared outside the two source files; the
outcome methods `Status` returns are NoMethod, Checkmate and Stalemate. -/
inductive Method where
  | NoMethod
  | Checkmate
  | Stalemate
  deriving DecidableEq, Repr

/-- Modelled from the spec: the mode flag of the move generator, collect-all or
stop-at-first, is declared outside the two source files. -/
inductive getType where
  | getAll
  | getFirst
  deriving DecidableEq, Repr

/-! ## `position.go` -/

/-- The type `Side`: an `int`. -/
abbrev Side := Int

/-- The constant `KingSide Side = iota + 1`. -/
def KingSide : Side := 1

/-- The constant `QueenSide`, the next one of the same block. -/
def QueenSide : Side := 2

/-- The type `CastleRights`: a string. -/
abbrev CastleRights := List Char

/-- The method `CastleRights.CanCastle`. -/
def CastleRights.CanCastle (cr : CastleRights) (c : Color) (side : Side) : Bool :=
  let char := ['k']
  let char := if side = QueenSide then ['q'] else char
  let char := if c = Color.White then ToUpper char else char
  Contains cr char

/-- A Go slice of moves: `none` is the nil slice. -/
abbrev MoveSlice := Option (List Move)

/-- The Go `len` of a slice. -/
def MoveSlice.len : MoveSlice → Nat
  | none => 0
  | some l => l.length

/-- The Go expression `append([]*Move(nil), xs...)`: a fresh slice with the elements of `xs`,
nil when there is none. -/
def MoveSlice.copy : MoveSlice → MoveSlice
  | some (a :: l) => some (a :: l)
  | _ => none

/-- The struct `Position`. -/
structure Position where
  board : Board
  turn : Color
  castleRights : CastleRights
  enPassantSquare : Square
  halfMoveClock : Int
  moveCount : Int
  validMoves : MoveSlice

/-- The method `Position.Turn`. -/
def Position.Turn (pos : Position) : Color := pos.turn

/-- The method `Position.CastleRights`. -/
def Position.CastleRights (pos : Position) : CastleRights := pos.castleRights

/-- The method `Position.updateCastleRights`. -/
def Position.updateCastleRights (pos : Position) (m : Move) : Chess.CastleRights :=
  let cr := pos.castleRights
  let p := pos.board.piece m.s1
  let cr := if p = Piece.WhiteKing ∨ m.s1 = H1 then Replace cr ['K'] [] else cr
  let cr := if p = Piece.WhiteKing ∨ m.s1 = A1 then Replace cr ['Q'] [] else cr
  let cr := if p = Piece.BlackKing ∨ m.s1 = H8 then Replace cr ['k'] [] else cr
  let cr := if p = Piece.BlackKing ∨ m.s1 = A8 then Replace cr ['q'] [] else cr
  let cr := if cr = [] then ['-'] else cr
  cr

/-- The test `(bbSquares[sq] & mask) != 0`; `none` when the index panics. -/
def onMask (sq : Square) (mask : bitboard) : Option Bool :=
  (bbSquares sq).map fun bb => bb &&& mask != 0

/-- The method `Position.updateEnPassantSquare`; the conjunctions are evaluated left to right and stop at
the first false operand. -/
def Position.updateEnPassantSquare (pos : Position) (m : Move) : Option Square :=
  let p := pos.board.piece m.s1
  if p.Type ≠ PieceType.Pawn then some NoSquare
  else
    let white : Option Bool :=
      if pos.turn = Color.White then
        (onMask m.s1 bbRank2).bind fun r1 => if r1 then onMask m.s2 bbRank4 else some false
      else some false
    white.bind fun w =>
      if w then some (m.s2 - 8)
      else
        let black : Option Bool :=
          if pos.turn = Color.Black then
            (onMask m.s1 bbRank7).bind fun r1 => if r1 then onMask m.s2 bbRank5 else some false
          else some false
        black.bind fun k => if k then some (m.s2 + 8) else some NoSquare

/-- The method `Position.Update`. The board collaborator `update` (with the preceding `copy`) is the
parameter `boardUpdate`. -/
def Position.Update (boardUpdate : Board → Move → Board) (pos : Position) (m : Move) :
    Option Position :=
  let moveCount := if pos.turn = Color.Black then wrapInt (pos.moveCount + 1) else pos.moveCount
  let cr := pos.CastleRights
  let ncr := pos.updateCastleRights m
  let p := pos.board.piece m.s1
  let halfMove :=
    if p.Type = PieceType.Pawn ∨ m.HasTag MoveTag.Capture = true ∨ cr ≠ ncr then 0
    else wrapInt (pos.halfMoveClock + 1)
  let b := boardUpdate pos.board m
  (pos.updateEnPassantSquare m).map fun ep =>
    { board := b
      turn := pos.turn.Other
      castleRights := ncr
      enPassantSquare := ep
      halfMoveClock := halfMove
      moveCount := moveCount
      validMoves := none }

/-- The Go operator `^` on a `uint64`. -/
def complement (b : bitboard) : bitboard := 2 ^ 64 - 1 - b % 2 ^ 64

/-- The method `Position.ValidMoves`: the returned slice and the position after the call (the cache may
have been filled). The move generator `getValidMoves` is a parameter. -/
def Position.ValidMoves (getValidMoves : Position → bitboard → getType → Bool → MoveSlice)
    (pos : Position) : MoveSlice × Position :=
  match pos.validMoves with
  | some l => (MoveSlice.copy (some l), pos)
  | none =>
    let s2BB := if pos.Turn = Color.Black then complement pos.board.blackSqs
      else complement pos.board.whiteSqs
    let pos1 := { pos with validMoves := getValidMoves pos s2BB getType.getAll false }
    (MoveSlice.copy pos1.validMoves, pos1)

/-- The method `Position.Status`: the returned method and the position after the call. The check detection
`inCheck` and the move generator are parameters. -/
def Position.Status (inCheck : Position → Bool)
    (getValidMoves : Position → bitboard → getType → Bool → MoveSlice)
    (pos : Position) : Method × Position :=
  let inCheck := inCheck pos
  let r := pos.ValidMoves getValidMoves
  let hasMove := decide (r.1.len > 0)
  if !inCheck && !hasMove then (Method.Stalemate, r.2)
  else if inCheck && !hasMove then (Method.Checkmate, r.2)
  else (Method.NoMethod, r.2)

/-- The method `CastleRights.String`. -/
def CastleRights.String (cr : CastleRights) : List Char := cr

/-- The method `Position.UnmarshalText`: the returned error (`none` is nil) and the position
after the call. The decoder `decodeFEN`, declared outside the two source files, is a
parameter; its error is a message. -/
def Position.UnmarshalText (decodeFEN : List Char → Except (List Char) Position)
    (pos : Position) (text : List Char) : Option (List Char) × Position :=
  match decodeFEN text with
  | Except.error err => (some err, pos)
  | Except.ok cp =>
    (none,
      { pos with
        board := cp.board
        turn := cp.turn
        castleRights := cp.castleRights
        enPassantSquare := cp.enPassantSquare
        halfMoveClock := cp.halfMoveClock
        moveCount := cp.moveCount })

/-- The method `Position.copy`; the copy of the board is the same board value. -/
def Position.copy (pos : Position) : Position :=
  { board := pos.board
    turn := pos.turn
    castleRights := pos.castleRights
    enPassantSquare := pos.enPassantSquare
    halfMoveClock := pos.halfMoveClock
    moveCount := pos.moveCount
    validMoves := none }

/-- The method `Position.samePosition`. The board collaborator `String`, declared outside the
two source files, is the parameter `boardString`. -/
def Position.samePosition (boardString : Board → List Char) (pos pos2 : Position) : Bool :=
  boardString pos.board == boardString pos2.board &&
    pos.turn == pos2.turn &&
    CastleRights.String pos.castleRights == CastleRights.String pos2.castleRights &&
    pos.enPassantSquare == pos2.enPassantSquare

/-! ## Auxiliary definitions of the proofs -/

/-- The string `newBitboard` builds before it calls `strconv.ParseUint`. -/
def newBitboardString (m : SquareMap) : List Char :=
  (List.range numOfSquaresInBoard).foldl
    (fun (s : List Char) (sq : Nat) => if m.get (sq : Int) then s ++ ['1'] else s ++ ['0']) []

/-- The elements of a Go slice of moves. -/
def MoveSlice.elems : MoveSlice → List Move
  | none => []
  | some l => l

/-- The method `Position.ValidMoves` with a counter of the runs of the move generator: the
counter is incremented in the branch that calls `getValidMoves`. -/
def Position.ValidMovesCounted
    (getValidMoves : Position → bitboard → getType → Bool → MoveSlice)
    (pos : Position) (runs : Nat) : MoveSlice × Position × Nat :=
  match pos.validMoves with
  | some l => (MoveSlice.copy (some l), pos, runs)
  | none =>
    let s2BB := if pos.Turn = Color.Black then complement pos.board.blackSqs
      else complement pos.board.whiteSqs
    let pos1 := { pos with validMoves := getValidMoves pos s2BB getType.getAll false }
    (MoveSlice.copy pos1.validMoves, pos1, runs + 1)

/-- The slices returned by `k` successive calls of `ValidMoves` on one instance, the instance
after them, and the counter of the runs of the move generator. -/
def Position.ValidMovesRepeat
    (getValidMoves : Position → bitboard → getType → Bool → MoveSlice) :
    Nat → Position → Nat → List MoveSlice × Position × Nat
  | 0, pos, runs => ([], pos, runs)
  | k + 1, pos, runs =>
    let r := pos.ValidMovesCounted getValidMoves runs
    let rest := Position.ValidMovesRepeat getValidMoves k r.2.1 r.2.2
    (r.1 :: rest.1, rest.2.1, rest.2.2)

/-- The destination mask `ValidMoves` hands to the move generator. -/
def Position.s2BB (pos : Position) : bitboard :=
  if pos.Turn = Color.Black then complement pos.board.blackSqs
  else complement pos.board.whiteSqs

/-- Castling rights in canonical form: "-", or a non-empty string over K, Q, k, q. -/
def canonicalRights (cr : CastleRights) : Prop :=
  cr = ['-'] ∨ (cr ≠ [] ∧ ∀ x ∈ cr, x = 'K' ∨ x = 'Q' ∨ x = 'k' ∨ x = 'q')

/-- The character written for a bit. -/
def bitChar (b : Bool) : Char := if b then '1' else '0'

/-- The number whose binary digits, most significant first, are `f 0, …, f (k-1)`. -/
def bitsValue (f : Nat → Bool) : Nat → Nat
  | 0 => 0
  | k + 1 => 2 * bitsValue f k + (f k).toNat

/-- The `k` low bits of `u` as characters, most significant first. -/
def fixedBits (k u : Nat) : List Char :=
  (List.range k).map (fun i => bitChar (u.testBit (k - 1 - i)))

/-- A real cell of the board: a square in `[0,64)`. -/
def validSquare (sq : Square) : Prop := 0 ≤ sq ∧ sq < 64

instance (sq : Square) : Decidable (validSquare sq) :=
  inferInstanceAs (Decidable (0 ≤ sq ∧ sq < 64))

/-- The 0-based rank of a square in the rank-major numbering from a1 = 0: rank 2 has index 1,
rank 4 index 3, rank 5 index 4 and rank 7 index 6. -/
def rankIndex (sq : Square) : Int := sq / 8

/-- The 0-based file of a square in the rank-major numbering from a1 = 0. -/
def fileIndex (sq : Square) : Int := sq % 8

/-- The square `x` lies between the source `s1` and the destination `s2` of a straight
two-rank advance: on their common file, on the rank halfway. -/
def intervening (s1 s2 x : Square) : Prop :=
  fileIndex x = fileIndex s1 ∧ fileIndex x = fileIndex s2 ∧
    2 * rankIndex x = rankIndex s1 + rankIndex s2

instance (s1 s2 x : Square) : Decidable (intervening s1 s2 x) :=
  inferInstanceAs (Decidable (_ ∧ _ ∧ _))

/-! ## Concrete positions and moves of the instances -/

/-- A board given by the list of its pieces, square 0 first. -/
def boardOf (pieces : List Piece) (whiteSqs blackSqs : bitboard) : Board :=
  { squares := fun sq => if 0 ≤ sq ∧ sq < 64 then pieces.getD sq.toNat Piece.NoPiece
      else Piece.NoPiece
    whiteSqs := whiteSqs
    blackSqs := blackSqs }

/-- The starting position, `rnbqkbnr/pppppppp/8/8/8/8/PPPPPPPP/RNBQKBNR w KQkq - 0 1`. -/
def startPosition : Position :=
  { board := boardOf
      ([Piece.WhiteRook, Piece.WhiteKnight, Piece.WhiteBishop, Piece.WhiteQueen,
        Piece.WhiteKing, Piece.WhiteBishop, Piece.WhiteKnight, Piece.WhiteRook]
        ++ List.replicate 8 Piece.WhitePawn ++ List.replicate 32 Piece.NoPiece
        ++ List.replicate 8 Piece.BlackPawn ++
       [Piece.BlackRook, Piece.BlackKnight, Piece.BlackBishop, Piece.BlackQueen,
        Piece.BlackKing, Piece.BlackBishop, Piece.BlackKnight, Piece.BlackRook])
      0xFFFF000000000000 0x000000000000FFFF
    turn := Color.White
    castleRights := ['K', 'Q', 'k', 'q']
    enPassantSquare := NoSquare
    halfMoveClock := 0
    moveCount := 1
    validMoves := none }

/-- The position after 1. e4 e5, `rnbqkbnr/pppp1ppp/8/4p3/4P3/8/PPPP1PPP/RNBQKBNR w KQkq e6 0 2`. -/
def openPosition : Position :=
  { board := boardOf
      ([Piece.WhiteRook, Piece.WhiteKnight, Piece.WhiteBishop, Piece.WhiteQueen,
        Piece.WhiteKing, Piece.WhiteBishop, Piece.WhiteKnight, Piece.WhiteRook]
        ++ List.replicate 4 Piece.WhitePawn ++ [Piece.NoPiece] ++ List.replicate 3 Piece.WhitePawn
        ++ List.replicate 12 Piece.NoPiece ++ [Piece.WhitePawn] ++ List.replicate 7 Piece.NoPiece
        ++ [Piece.BlackPawn] ++ List.replicate 11 Piece.NoPiece
        ++ List.replicate 4 Piece.BlackPawn ++ [Piece.NoPiece] ++ List.replicate 3 Piece.BlackPawn ++
       [Piece.BlackRook, Piece.BlackKnight, Piece.BlackBishop, Piece.BlackQueen,
        Piece.BlackKing, Piece.BlackBishop, Piece.BlackKnight, Piece.BlackRook])
      0xFFF7000800000000 0x000000000800F7FF
    turn := Color.White
    castleRights := ['K', 'Q', 'k', 'q']
    enPassantSquare := 44
    halfMoveClock := 0
    moveCount := 2
    validMoves := none }

/-- A board collaborator for the instances: the piece of the source square is put on the
destination square. -/
def relocate (b : Board) (m : Move) : Board :=
  { b with squares := fun sq =>
      if sq = m.s2 then b.squares m.s1 else if sq = m.s1 then Piece.NoPiece else b.squares sq }

/-- The pawn move e2-e4. -/
def e2e4 : Move := { s1 := 12, s2 := 28, promo := PieceType.NoPieceType, tags := [] }

/-- The king move e1-e2. -/
def e1e2 : Move := { s1 := 4, s2 := 12, promo := PieceType.NoPieceType, tags := [] }

/-- The knight move g1-f3. -/
def g1f3 : Move := { s1 := 6, s2 := 21, promo := PieceType.NoPieceType, tags := [] }

/-- The unvalidated pawn move a2-b4: two ranks up and one file aside. -/
def a2b4 : Move := { s1 := 8, s2 := 25, promo := PieceType.NoPieceType, tags := [] }

/-- The pawn move e7-e5. -/
def e7e5 : Move := { s1 := 52, s2 := 36, promo := PieceType.NoPieceType, tags := [] }

/-- The position after 1. e4, `rnbqkbnr/pppppppp/8/8/4P3/8/PPPP1PPP/RNBQKBNR b KQkq e3 0 1`. -/
def afterE4Position : Position :=
  { board := boardOf
      ([Piece.WhiteRook, Piece.WhiteKnight, Piece.WhiteBishop, Piece.WhiteQueen,
        Piece.WhiteKing, Piece.WhiteBishop, Piece.WhiteKnight, Piece.WhiteRook]
        ++ List.replicate 4 Piece.WhitePawn ++ [Piece.NoPiece] ++ List.replicate 3 Piece.WhitePawn
        ++ List.replicate 12 Piece.NoPiece ++ [Piece.WhitePawn] ++ List.replicate 19 Piece.NoPiece
        ++ List.replicate 8 Piece.BlackPawn ++
       [Piece.BlackRook, Piece.BlackKnight, Piece.BlackBishop, Piece.BlackQueen,
        Piece.BlackKing, Piece.BlackBishop, Piece.BlackKnight, Piece.BlackRook])
      0xFFF7000800000000 0x000000000000FFFF
    turn := Color.Black
    castleRights := ['K', 'Q', 'k', 'q']
    enPassantSquare := 20
    halfMoveClock := 0
    moveCount := 1
    validMoves := none }

/-- The record of `afterE4Position`. -/
def afterE4Record : List Char :=
  "rnbqkbnr/pppppppp/8/8/4P3/8/PPPP1PPP/RNBQKBNR b KQkq e3 0 1".toList

/-- A decoder for the instances: it knows one record and rejects every other text. -/
def decodeOnly (record : List Char) (decoded : Position) (text : List Char) :
    Except (List Char) Position :=
  if text = record then Except.ok decoded else Except.error "chess: fen invalid".toList

/-- A move generator for the instances: one pawn move for the side to move. -/
def genByTurn (pos : Position) (_s2BB : bitboard) (_gt : getType) (_skipCastling : Bool) :
    MoveSlice :=
  if pos.turn = Color.White then some [e2e4] else some [e7e5]

/-- A move generator for the instances: no move, as an empty slice that is not nil. -/
def genEmpty (_pos : Position) (_s2BB : bitboard) (_gt : getType) (_skipCastling : Bool) :
    MoveSlice :=
  some []

/-- The position after 1. f3 e5 2. g4 Qh4, in which White is checkmated and has no legal
move, `rnb1kbnr/pppp1ppp/8/4p3/6Pq/5P2/PPPPP2P/RNBQKBNR w KQkq - 1 3`. -/
def foolsMatePosition : Position :=
  { board := boardOf
      ([Piece.WhiteRook, Piece.WhiteKnight, Piece.WhiteBishop, Piece.WhiteQueen,
        Piece.WhiteKing, Piece.WhiteBishop, Piece.WhiteKnight, Piece.WhiteRook]
        ++ List.replicate 5 Piece.WhitePawn ++ [Piece.NoPiece, Piece.NoPiece, Piece.WhitePawn]
        ++ List.replicate 5 Piece.NoPiece ++ [Piece.WhitePawn] ++ List.replicate 2 Piece.NoPiece
        ++ List.replicate 6 Piece.NoPiece ++ [Piece.WhitePawn, Piece.BlackQueen]
        ++ List.replicate 4 Piece.NoPiece ++ [Piece.BlackPawn] ++ List.replicate 3 Piece.NoPiece
        ++ List.replicate 8 Piece.NoPiece
        ++ List.replicate 4 Piece.BlackPawn ++ [Piece.NoPiece] ++ List.replicate 3 Piece.BlackPawn ++
       [Piece.BlackRook, Piece.BlackKnight, Piece.BlackBishop, Piece.NoPiece,
        Piece.BlackKing, Piece.BlackBishop, Piece.BlackKnight, Piece.BlackRook])
      0xFFF9040200000000 0x000000010800F7EF
    turn := Color.White
    castleRights := ['K', 'Q', 'k', 'q']
    enPassantSquare := NoSquare
    halfMoveClock := 1
    moveCount := 3
    validMoves := none }

/-- The instance obtained from the starting position by a `ValidMoves` call, which fills the
cache, followed by an `UnmarshalText` call with the record of the position after 1. e4. -/
def reloadedPosition : Position :=
  ((startPosition.ValidMoves genByTurn).2.UnmarshalText
    (decodeOnly afterE4Record afterE4Position) afterE4Record).2

/-! ## Bit-level lemmas -/

theorem bitsValue_lt (f : Nat → Bool) (k : Nat) : bitsValue f k < 2 ^ k := by
  induction k with
  | zero => simp [bitsValue]
  | succ k ih =>
    have hb : (f k).toNat ≤ 1 := Bool.toNat_le (f k)
    simp only [bitsValue, pow_succ]
    omega

theorem testBit_bitsValue (f : Nat → Bool) (k j : Nat) :
    (bitsValue f k).testBit j = (decide (j < k) && f (k - 1 - j)) := by
  induction k generalizing j with
  | zero => simp [bitsValue]
  | succ k ih =>
    have hb : (f k).toNat ≤ 1 := Bool.toNat_le (f k)
    cases j with
    | zero =>
      simp only [bitsValue, Nat.testBit_zero]
      cases hfk : f k <;> simp [hfk]; omega
    | succ j =>
      rw [Nat.testBit_succ]
      have hdiv : bitsValue f (k + 1) / 2 = bitsValue f k := by
        simp only [bitsValue]; omega
      rw [hdiv, ih]
      have e : k + 1 - 1 - (j + 1) = k - 1 - j := by omega
      rw [e]
      simp

theorem parseUintLoop_cons (c : Char) (cs : List Char) (n : Nat) :
    parseUintLoop (c :: cs) n =
      if c = '0' ∨ c = '1' then
        if n ≥ 2 ^ 63 then none
        else if n * 2 + (if c = '1' then 1 else 0) > 2 ^ 64 - 1 then none
        else parseUintLoop cs (n * 2 + (if c = '1' then 1 else 0))
      else none := by
  simp [parseUintLoop]

theorem parseUintLoop_append (l : List Char) (c : Char) (n : Nat) :
    parseUintLoop (l ++ [c]) n = (parseUintLoop l n).bind (fun v => parseUintLoop [c] v) := by
  induction l generalizing n with
  | nil => simp [parseUintLoop]
  | cons d l ih =>
    rw [List.cons_append, parseUintLoop_cons d (l ++ [c]) n, parseUintLoop_cons d l n]
    split_ifs <;> simp [ih]

theorem parseUintLoop_bits (f : Nat → Bool) (k n : Nat)
    (h : n * 2 ^ k + bitsValue f k < 2 ^ 64) :
    parseUintLoop ((List.range k).map (fun i => bitChar (f i))) n
      = some (n * 2 ^ k + bitsValue f k) := by
  induction k with
  | zero => simp [parseUintLoop, bitsValue]
  | succ k ih =>
    have hb : (f k).toNat ≤ 1 := Bool.toNat_le (f k)
    have e : n * (2 ^ k * 2) = 2 * (n * 2 ^ k) := by ring
    simp only [bitsValue, pow_succ] at h
    have h1 : n * 2 ^ k + bitsValue f k < 2 ^ 63 := by omega
    have h2 : n * 2 ^ k + bitsValue f k < 2 ^ 64 := by omega
    rw [List.range_succ, List.map_append, List.map_singleton, parseUintLoop_append, ih h2]
    simp only [Option.some_bind, parseUintLoop, bitsValue, pow_succ]
    cases hfk : f k <;> simp [bitChar, hfk] <;> omega

theorem foldl_snoc_eq_map (g : Nat → Char) (l : List Nat) (acc : List Char) :
    l.foldl (fun (s : List Char) sq => s ++ [g sq]) acc = acc ++ l.map g := by
  induction l generalizing acc with
  | nil => simp
  | cons a l ih => simp [ih]

theorem newBitboard_eq (m : SquareMap) :
    newBitboard m = some (bitsValue (fun (i : Nat) => m.get (i : Int)) 64) := by
  have hf : (fun (s : List Char) (sq : Nat) => if m.get (sq : Int) then s ++ ['1'] else s ++ ['0'])
      = (fun (s : List Char) (sq : Nat) => s ++ [bitChar (m.get (sq : Int))]) := by
    funext s sq
    cases h : m.get (sq : Int) <;> simp [bitChar]
  have hlt := bitsValue_lt (fun (i : Nat) => m.get (i : Int)) 64
  have hp := parseUintLoop_bits (fun (i : Nat) => m.get (i : Int)) 64 0 (by omega)
  have hs : ∀ l : List Nat,
      l.foldl (fun (s : List Char) (sq : Nat) =>
        if m.get (sq : Int) then s ++ ['1'] else s ++ ['0']) []
        = l.map (fun (i : Nat) => bitChar (m.get (i : Int))) := by
    intro l
    rw [hf, foldl_snoc_eq_map, List.nil_append]
  have hne : (List.range 64).map (fun (i : Nat) => bitChar (m.get (i : Int))) ≠ [] := by
    intro h0
    have := congrArg List.length h0
    simp at this
  unfold newBitboard ParseUint
  simp only [hs, numOfSquaresInBoard]
  rw [if_neg hne, hp]
  simp

theorem Occupied_eq_testBit (b : bitboard) (n : Nat) (h : n < 64) :
    bitboard.Occupied b (n : Int) = (b % 2 ^ 64).testBit (63 - n) := by
  have e : (((63 : Int) - (n : Int)) % 2 ^ 64).toNat = 63 - n := by omega
  simp only [bitboard.Occupied, e, Nat.testBit, Nat.and_comm 1]
  generalize (b % 2 ^ 64) >>> (63 - n) = x
  have hx : x &&& 1 = x % 2 := Nat.and_one_is_mod x
  rcases Nat.mod_two_eq_zero_or_one x with h0 | h0 <;> simp [hx, h0]

theorem fixedBits_length (k u : Nat) : (fixedBits k u).length = k := by
  simp [fixedBits]

theorem digitChar_mod_two (u : Nat) : digitChar (u % 2) = bitChar (u.testBit 0) := by
  simp only [digitChar, bitChar, Nat.testBit_zero]
  rcases Nat.mod_two_eq_zero_or_one u with h | h <;> simp [h]

theorem fixedBits_succ (k u : Nat) :
    fixedBits (k + 1) u = fixedBits k (u / 2) ++ [digitChar (u % 2)] := by
  unfold fixedBits
  rw [List.range_succ, List.map_append, List.map_singleton, digitChar_mod_two]
  congr 1
  · apply List.map_congr_left
    intro i hi
    have hik : i < k := List.mem_range.mp hi
    have e : k + 1 - 1 - i = (k - 1 - i) + 1 := by omega
    rw [e, Nat.testBit_succ]
  · have e : k + 1 - 1 - k = 0 := by omega
    rw [e]

theorem fixedBits_zero (k : Nat) : fixedBits k 0 = List.replicate k '0' := by
  induction k with
  | zero => rfl
  | succ k ih =>
    rw [fixedBits_succ, Nat.zero_div, ih, List.replicate_succ']
    rfl

theorem formatBits_acc (u : Nat) (acc : List Char) :
    formatBits u acc = formatBits u [] ++ acc := by
  induction u using Nat.strong_induction_on generalizing acc with
  | _ u ih =>
    rw [formatBits, formatBits.eq_1 u []]
    by_cases h : 2 ≤ u
    · rw [dif_pos h, dif_pos h, ih (u / 2) (by omega) (digitChar (u % 2) :: acc),
        ih (u / 2) (by omega) [digitChar (u % 2)]]
      simp
    · rw [dif_neg h, dif_neg h]
      simp

theorem FormatUint_step (u : Nat) (h : 2 ≤ u) :
    FormatUint u = FormatUint (u / 2) ++ [digitChar (u % 2)] := by
  unfold FormatUint
  rw [formatBits, dif_pos h, formatBits_acc]

theorem FormatUint_small (u : Nat) (h : ¬ 2 ≤ u) : FormatUint u = [digitChar (u % 2)] := by
  unfold FormatUint
  rw [formatBits, dif_neg h, Nat.mod_eq_of_lt (by omega)]

theorem FormatUint_pad (k u : Nat) (hu : u < 2 ^ (k + 1)) :
    (FormatUint u).length ≤ k + 1 ∧
      List.replicate (k + 1 - (FormatUint u).length) '0' ++ FormatUint u
        = fixedBits (k + 1) u := by
  induction k generalizing u with
  | zero =>
    have h : ¬ 2 ≤ u := by omega
    rw [FormatUint_small u h, fixedBits_succ]
    simp [fixedBits]
  | succ k ih =>
    by_cases h : 2 ≤ u
    · have hu2 : u / 2 < 2 ^ (k + 1) := by
        rw [pow_succ] at hu; omega
      obtain ⟨hl, he⟩ := ih (u / 2) hu2
      rw [FormatUint_step u h, fixedBits_succ (k + 1) u, ← he]
      constructor
      · simp only [List.length_append, List.length_singleton]; omega
      · have e : k + 1 + 1 - (FormatUint (u / 2) ++ [digitChar (u % 2)]).length
            = k + 1 - (FormatUint (u / 2)).length := by
          simp only [List.length_append, List.length_singleton]; omega
        rw [e, List.append_assoc]
    · have hd : u / 2 = 0 := by omega
      rw [FormatUint_small u h, fixedBits_succ (k + 1) u, hd, fixedBits_zero]
      simp

theorem String_eq (b : bitboard) :
    bitboard.String b = some (fixedBits 64 (b % 2 ^ 64)) := by
  have hlt : b % 2 ^ 64 < 2 ^ (63 + 1) := Nat.mod_lt _ (by norm_num)
  obtain ⟨hl, he⟩ := FormatUint_pad 63 (b % 2 ^ 64) hlt
  unfold bitboard.String
  simp only [numOfSquaresInBoard]
  rw [if_pos hl]
  exact congrArg some he

theorem lookup_filter_ne (m : SquareMap) (a q : Square) (h : q ≠ a) :
    (m.filter (fun e => e.1 != a)).lookup q = m.lookup q := by
  induction m with
  | nil => rfl
  | cons e m ih =>
    obtain ⟨k, v⟩ := e
    by_cases hk : k = a
    · subst hk
      have hq : (q == k) = false := by simp [h]
      simp [List.filter_cons, List.lookup_cons, hq, ih]
    · have hk2 : (k != a) = true := by simp [hk]
      rw [List.filter_cons, if_pos hk2]
      simp only [List.lookup_cons, ih]

theorem SquareMap.get_set (m : SquareMap) (a q : Square) (v : Bool) :
    (m.set a v).get q = if q = a then v else m.get q := by
  unfold SquareMap.get SquareMap.set
  by_cases h : q = a
  · simp [h, List.lookup_cons]
  · have hq : (q == a) = false := by simp [h]
    rw [List.lookup_cons, hq, if_neg h]
    simp only [lookup_filter_ne m a q h]

theorem sliceStr_map (g : Nat → Char) (n i : Nat) (h : i < n) :
    sliceStr ((List.range n).map g) i (i + 1) = some [g i] := by
  unfold sliceStr
  have hl : i + 1 ≤ ((List.range n).map g).length := by simp; omega
  rw [if_pos ⟨Nat.le_succ i, hl⟩]
  have hi : i < ((List.range n).map g).length := by simp; omega
  rw [List.drop_eq_getElem_cons hi]
  simp

theorem mapping_fold (g : Nat → Bool) (s : List Char)
    (hs : ∀ i, i < 64 → sliceStr s i (i + 1) = some [bitChar (g i)]) (k : Nat) (hk : k ≤ 64) :
    ∃ m : SquareMap,
      (List.range k).foldl
        (fun (acc : Option SquareMap) (sq : Nat) =>
          acc.bind fun m =>
            (sliceStr s sq (sq + 1)).map fun c =>
              if c = ['1'] then m.set (sq : Int) true else m)
        (some []) = some m ∧
      ∀ q : Int, m.get q = (decide (0 ≤ q ∧ q < (k : Int)) && g q.toNat) := by
  induction k with
  | zero =>
    refine ⟨[], rfl, ?_⟩
    intro q
    have : ¬ (0 ≤ q ∧ q < ((0 : Nat) : Int)) := by omega
    simp [SquareMap.get, this]
  | succ k ih =>
    obtain ⟨m, hm, hget⟩ := ih (by omega)
    rw [List.range_succ, List.foldl_append, hm]
    simp only [List.foldl_cons, List.foldl_nil, Option.some_bind, hs k (by omega), Option.map_some']
    refine ⟨_, rfl, ?_⟩
    intro q
    cases hg : g k
    · have hne : ¬ ([bitChar false] = ['1']) := by simp [bitChar]
      rw [if_neg hne, hget]
      by_cases hq : q = (k : Int)
      · subst hq
        simp [hg]
      · have : (0 ≤ q ∧ q < ((k + 1 : Nat) : Int)) ↔ (0 ≤ q ∧ q < (k : Int)) := by omega
        simp only [this]
    · have he : [bitChar true] = ['1'] := by simp [bitChar]
      rw [if_pos he, SquareMap.get_set, hget]
      by_cases hq : q = (k : Int)
      · subst hq
        simp [hg]
      · rw [if_neg hq]
        have : (0 ≤ q ∧ q < ((k + 1 : Nat) : Int)) ↔ (0 ≤ q ∧ q < (k : Int)) := by omega
        simp only [this]

theorem Mapping_spec (b : bitboard) :
    ∃ m : SquareMap, bitboard.Mapping b = some m ∧
      ∀ q : Int, m.get q
        = (decide (0 ≤ q ∧ q < 64) && (b % 2 ^ 64).testBit (63 - q.toNat)) := by
  have hs : ∀ i, i < 64 → sliceStr (fixedBits 64 (b % 2 ^ 64)) i (i + 1)
      = some [bitChar ((b % 2 ^ 64).testBit (64 - 1 - i))] :=
    fun i hi => sliceStr_map _ 64 i hi
  obtain ⟨m, hm, hget⟩ := mapping_fold (fun i => (b % 2 ^ 64).testBit (64 - 1 - i))
    (fixedBits 64 (b % 2 ^ 64)) hs 64 (le_refl _)
  refine ⟨m, ?_, ?_⟩
  · unfold bitboard.Mapping
    rw [String_eq, Option.some_bind]
    exact hm
  · intro q
    rw [hget]
    rfl

theorem testBit_of_lt_64 (b j : Nat) (hb : b < 2 ^ 64) (hj : 64 ≤ j) : b.testBit j = false := by
  apply Nat.testBit_lt_two_pow
  calc b < 2 ^ 64 := hb
    _ ≤ 2 ^ j := Nat.pow_le_pow_right (by norm_num) hj

theorem reverseLoop_testBit (k u b j : Nat) (hk : k ≤ 64) (hu : u < 2 ^ (64 - k)) :
    (reverseLoop k u b).testBit j
      = if j < k then b.testBit (k - 1 - j) else u.testBit (j - k) := by
  induction k generalizing u b j with
  | zero => simp [reverseLoop]
  | succ k ih =>
    have hpow : 2 ^ (64 - k) = 2 * 2 ^ (64 - (k + 1)) := by
      have e : 64 - k = (64 - (k + 1)) + 1 := by omega
      rw [e, pow_succ]; ring
    have hle : 2 ^ (64 - k) ≤ 2 ^ 64 := Nat.pow_le_pow_right (by norm_num) (by omega)
    have hbit : (b % 2 ^ 64) &&& 1 = b % 2 := by
      rw [Nat.and_one_is_mod, Nat.mod_mod_of_dvd b (by norm_num : 2 ∣ 2 ^ 64)]
    have hb2 : b % 2 < 2 := Nat.mod_lt _ (by norm_num)
    have hstep : ((u <<< 1) % 2 ^ 64 + ((b % 2 ^ 64) &&& 1)) % 2 ^ 64 = 2 * u + b % 2 := by
      rw [hbit, Nat.shiftLeft_eq, pow_one, Nat.mod_eq_of_lt (by omega), Nat.mod_eq_of_lt (by omega)]
      omega
    have hu2 : 2 * u + b % 2 < 2 ^ (64 - k) := by omega
    rw [reverseLoop, hstep, ih (2 * u + b % 2) (b >>> 1) j (by omega) hu2,
      Nat.shiftRight_eq_div_pow, pow_one]
    by_cases h1 : j < k
    · have e : k + 1 - 1 - j = (k - 1 - j) + 1 := by omega
      rw [if_pos h1, if_pos (by omega), e, Nat.testBit_succ]
    · rw [if_neg h1]
      by_cases h2 : j = k
      · subst h2
        have e : j + 1 - 1 - j = 0 := by omega
        have hm : (2 * u + b % 2) % 2 = b % 2 := by omega
        rw [if_pos (by omega), e, Nat.sub_self, Nat.testBit_zero, Nat.testBit_zero, hm]
      · have e : j - k = (j - (k + 1)) + 1 := by omega
        have hd : (2 * u + b % 2) / 2 = u := by omega
        rw [if_neg (by omega), e, Nat.testBit_succ, hd]

theorem Reverse_testBit (b j : Nat) :
    (bitboard.Reverse b).testBit j = (decide (j < 64) && b.testBit (63 - j)) := by
  unfold bitboard.Reverse
  rw [reverseLoop_testBit 64 0 b j (le_refl _) (by norm_num)]
  by_cases h : j < 64 <;> simp [h]

theorem Reverse_lt (b : Nat) : bitboard.Reverse b < 2 ^ 64 := by
  apply Nat.lt_pow_two_of_testBit
  intro i hi
  rw [Reverse_testBit]
  have : ¬ i < 64 := by omega
  simp [this]

/-! ## Lemmas on the string functions and on castling rights -/

theorem replaceLoop_single (k : Char) (s : List Char) :
    replaceLoop [k] [] s 0 = s.filter (fun c => c != k) := by
  induction s with
  | nil => rfl
  | cons c cs ih =>
    by_cases h : c = k
    · subst h
      simp [replaceLoop, List.isPrefixOf, ih]
    · have h2 : ¬ k = c := fun e => h e.symm
      simp [replaceLoop, List.isPrefixOf, ih, h, h2]

theorem Replace_single (k : Char) (s : List Char) :
    Replace s [k] [] = s.filter (fun c => c != k) :=
  replaceLoop_single k s

theorem Contains_single (k : Char) (s : List Char) :
    Contains s [k] = true ↔ k ∈ s := by
  induction s with
  | nil => simp [Contains]
  | cons c cs ih =>
    simp only [Contains, Bool.or_eq_true, ih, List.mem_cons]
    by_cases h : k = c <;> simp [List.isPrefixOf, h]

theorem mem_Replace_single (x k : Char) (s : List Char) :
    x ∈ Replace s [k] [] ↔ x ∈ s ∧ x ≠ k := by
  rw [Replace_single]
  simp [List.mem_filter]

theorem mem_ite_Replace (c : Prop) [Decidable c] (x k : Char) (s : List Char) :
    x ∈ (if c then Replace s [k] [] else s) ↔ x ∈ s ∧ ¬ (c ∧ x = k) := by
  by_cases h : c
  · rw [if_pos h, mem_Replace_single]
    simp [h]
  · rw [if_neg h]
    simp [h]

theorem mem_updateCastleRights (pos : Position) (m : Move) (x : Char) (hx : x ≠ '-') :
    x ∈ pos.updateCastleRights m ↔
      x ∈ pos.castleRights ∧
        ¬ ((pos.board.piece m.s1 = Piece.WhiteKing ∨ m.s1 = H1) ∧ x = 'K') ∧
        ¬ ((pos.board.piece m.s1 = Piece.WhiteKing ∨ m.s1 = A1) ∧ x = 'Q') ∧
        ¬ ((pos.board.piece m.s1 = Piece.BlackKing ∨ m.s1 = H8) ∧ x = 'k') ∧
        ¬ ((pos.board.piece m.s1 = Piece.BlackKing ∨ m.s1 = A8) ∧ x = 'q') := by
  have key : ∀ (r : List Char) (P : Prop), (x ∈ r ↔ P) →
      (x ∈ (if r = [] then ['-'] else r) ↔ P) := by
    intro r P hr
    by_cases h0 : r = []
    · rw [if_pos h0]
      subst h0
      simp only [List.mem_singleton, hx, false_iff]
      intro hP
      exact List.not_mem_nil x (hr.mpr hP)
    · rw [if_neg h0]
      exact hr
  unfold Position.updateCastleRights
  refine key _ _ ?_
  simp only [mem_ite_Replace]
  tauto

theorem CanCastle_iff (cr : CastleRights) (c : Color) (side : Side) :
    CastleRights.CanCastle cr c side = true ↔
      (if c = Color.White then (if side = QueenSide then 'Q' else 'K')
        else (if side = QueenSide then 'q' else 'k')) ∈ cr := by
  unfold CastleRights.CanCastle
  by_cases hs : side = QueenSide <;> by_cases hc : c = Color.White <;>
    simp [hs, hc, ToUpper, Contains_single]

/-! ## Lemmas on `Update` -/

theorem onMask_rank (sq : Square) (h : validSquare sq) (r : Nat) (hr : r < 8) :
    onMask sq (bbRank r) = some (decide (rankIndex sq = (r : Int))) := by
  obtain ⟨h0, h1⟩ := h
  obtain ⟨n, rfl⟩ := Int.eq_ofNat_of_zero_le h0
  have h1i : (n : Int) < 64 := h1
  have hn : n < 64 := by omega
  interval_cases n <;> interval_cases r <;> decide

theorem updateEnPassantSquare_valid (pos : Position) (m : Move)
    (h1 : validSquare m.s1) (h2 : validSquare m.s2) :
    pos.updateEnPassantSquare m = some
      (if (pos.board.piece m.s1).Type = PieceType.Pawn ∧ pos.turn = Color.White ∧
          rankIndex m.s1 = 1 ∧ rankIndex m.s2 = 3 then m.s2 - 8
       else if (pos.board.piece m.s1).Type = PieceType.Pawn ∧ pos.turn = Color.Black ∧
          rankIndex m.s1 = 6 ∧ rankIndex m.s2 = 4 then m.s2 + 8
       else NoSquare) := by
  have a2 := onMask_rank m.s1 h1 1 (by norm_num)
  have a4 := onMask_rank m.s2 h2 3 (by norm_num)
  have a7 := onMask_rank m.s1 h1 6 (by norm_num)
  have a5 := onMask_rank m.s2 h2 4 (by norm_num)
  unfold Position.updateEnPassantSquare
  simp only [bbRank2, bbRank4, bbRank5, bbRank7, a2, a4, a5, a7, Nat.cast_ofNat, Nat.cast_one]
  by_cases hp : (pos.board.piece m.s1).Type = PieceType.Pawn
  · cases ht : pos.turn <;>
      by_cases r1 : rankIndex m.s1 = 1 <;> by_cases r3 : rankIndex m.s2 = 3 <;>
      by_cases r6 : rankIndex m.s1 = 6 <;> by_cases r4 : rankIndex m.s2 = 4 <;>
      simp [hp, r1, r3, r6, r4]
  · simp [hp]

theorem Update_eq_some (boardUpdate : Board → Move → Board) (pos p1 : Position) (m : Move)
    (h : pos.Update boardUpdate m = some p1) :
    pos.updateEnPassantSquare m = some p1.enPassantSquare ∧
    p1.board = boardUpdate pos.board m ∧
    p1.turn = pos.turn.Other ∧
    p1.castleRights = pos.updateCastleRights m ∧
    p1.halfMoveClock =
      (if (pos.board.piece m.s1).Type = PieceType.Pawn ∨ m.HasTag MoveTag.Capture = true ∨
          pos.castleRights ≠ pos.updateCastleRights m then 0
       else wrapInt (pos.halfMoveClock + 1)) ∧
    p1.moveCount =
      (if pos.turn = Color.Black then wrapInt (pos.moveCount + 1) else pos.moveCount) ∧
    p1.validMoves = none := by
  unfold Position.Update at h
  cases hep : pos.updateEnPassantSquare m with
  | none => simp [hep] at h
  | some ep =>
    simp only [hep, Option.map_some', Option.some.injEq] at h
    subst h
    simp [Position.CastleRights]

theorem Update_isSome (boardUpdate : Board → Move → Board) (pos : Position) (m : Move)
    (h1 : validSquare m.s1) (h2 : validSquare m.s2) :
    (pos.Update boardUpdate m).isSome = true := by
  unfold Position.Update
  rw [updateEnPassantSquare_valid pos m h1 h2]
  rfl

theorem wrapInt_of_range (x : Int) (h0 : -(2 ^ 63) ≤ x) (h1 : x < 2 ^ 63) : wrapInt x = x := by
  unfold wrapInt
  omega

/-! ## The bitboard laws -/

/-- C1: for every mapping `m` and every square `s` with `0 ≤ s < 64`, `newBitboard m` returns
a bitboard whose `Occupied s` equals `m[s]`, an absent square counting as false. -/
theorem newBitboard_Occupied (m : SquareMap) (s : Square) (h0 : 0 ≤ s) (h1 : s < 64) :
    ∃ b, newBitboard m = some b ∧ bitboard.Occupied b s = m.get s := by
  obtain ⟨n, rfl⟩ := Int.eq_ofNat_of_zero_le h0
  have h1i : (n : Int) < 64 := h1
  have hn : n < 64 := by omega
  refine ⟨_, newBitboard_eq m, ?_⟩
  have e : 64 - 1 - (63 - n) = n := by omega
  have hj : 63 - n < 64 := by omega
  rw [Occupied_eq_testBit _ n hn, Nat.mod_eq_of_lt (bitsValue_lt _ 64), testBit_bitsValue, e]
  simp [hj]

/-- Instance of C1: the mapping with squares 0 and 5 occupied, read at square 5. -/
theorem newBitboard_Occupied_witness :
    (0 : Int) ≤ 5 ∧ (5 : Int) < 64 ∧
      ∃ b, newBitboard [(0, true), (5, true)] = some b ∧
        bitboard.Occupied b 5 = SquareMap.get [(0, true), (5, true)] 5 :=
  ⟨by decide, by decide, newBitboard_Occupied [(0, true), (5, true)] 5 (by decide) (by decide)⟩

/-- C2: for every 64-bit bitboard value `b`, `b.Mapping()` returns a mapping `m` and
`newBitboard m` returns `b` again. -/
theorem newBitboard_Mapping (b : bitboard) (hb : b < 2 ^ 64) :
    ∃ m, bitboard.Mapping b = some m ∧ newBitboard m = some b := by
  obtain ⟨m, hm, hget⟩ := Mapping_spec b
  refine ⟨m, hm, ?_⟩
  rw [newBitboard_eq]
  congr 1
  apply Nat.eq_of_testBit_eq
  intro j
  rw [testBit_bitsValue]
  by_cases hj : j < 64
  · have hq : (0 : Int) ≤ ((64 - 1 - j : Nat) : Int) ∧ ((64 - 1 - j : Nat) : Int) < 64 := by
      omega
    have e : 63 - (((64 - 1 - j : Nat) : Int)).toNat = j := by omega
    simp only [hget, hq, hj, e, and_self, decide_True, Bool.true_and, Nat.mod_eq_of_lt hb]
  · rw [testBit_of_lt_64 b j hb (by omega)]
    simp [hj]

/-- Instance of C2: the bitboard 5, squares 61 and 63. -/
theorem newBitboard_Mapping_witness :
    5 < 2 ^ 64 ∧ ∃ m, bitboard.Mapping 5 = some m ∧ newBitboard m = some 5 :=
  ⟨by decide, newBitboard_Mapping 5 (by decide)⟩

/-- C3: for every 64-bit bitboard value `b`, `b.Reverse().Reverse()` equals `b`. -/
theorem Reverse_Reverse (b : bitboard) (hb : b < 2 ^ 64) :
    bitboard.Reverse (bitboard.Reverse b) = b := by
  apply Nat.eq_of_testBit_eq
  intro j
  rw [Reverse_testBit, Reverse_testBit]
  by_cases hj : j < 64
  · have e : 63 - (63 - j) = j := by omega
    have h2 : 63 - j < 64 := by omega
    simp [hj, h2, e]
  · rw [testBit_of_lt_64 b j hb (by omega)]
    simp [hj]

/-- Instance of C3: the bitboard 5. -/
theorem Reverse_Reverse_witness :
    5 < 2 ^ 64 ∧ bitboard.Reverse (bitboard.Reverse 5) = 5 :=
  ⟨by decide, Reverse_Reverse 5 (by decide)⟩

/-- C4: for every bitboard value `b` and every square `s` with `0 ≤ s < 64`,
`b.Reverse().Occupied(s)` equals `b.Occupied(63 - s)`. -/
theorem Reverse_Occupied (b : bitboard) (s : Square) (h0 : 0 ≤ s) (h1 : s < 64) :
    bitboard.Occupied (bitboard.Reverse b) s = bitboard.Occupied b (63 - s) := by
  obtain ⟨n, rfl⟩ := Int.eq_ofNat_of_zero_le h0
  have h1i : (n : Int) < 64 := h1
  have hn : n < 64 := by omega
  have e : (63 : Int) - (n : Int) = ((63 - n : Nat) : Int) := by omega
  have e2 : 63 - (63 - n) = n := by omega
  have h2 : 63 - n < 64 := by omega
  rw [e, Occupied_eq_testBit _ n hn, Occupied_eq_testBit _ (63 - n) h2,
    Nat.mod_eq_of_lt (Reverse_lt b), Reverse_testBit, e2, Nat.testBit_mod_two_pow]
  simp [hn, h2]

/-- Instance of C4: the bitboard 5 read at square 2. -/
theorem Reverse_Occupied_witness :
    (0 : Int) ≤ 2 ∧ (2 : Int) < 64 ∧
      bitboard.Occupied (bitboard.Reverse 5) 2 = bitboard.Occupied 5 (63 - 2) :=
  ⟨by decide, by decide, Reverse_Occupied 5 2 (by decide) (by decide)⟩

/-! ## The transition function -/

/-- C5: for every position whose half-move clock is a count (non-negative, below the largest
`int`) and every move, `Update` returns on every move whose squares are on the board, and
whenever it returns, the new half-move clock is 0 if and only if the piece on the source square
is a pawn, or the move is tagged Capture, or the castling rights changed; in every other case
it is the old clock plus one. -/
theorem Update_halfMoveClock (boardUpdate : Board → Move → Board) (pos : Position) (m : Move)
    (h0 : 0 ≤ pos.halfMoveClock) (h1 : pos.halfMoveClock < 2 ^ 63 - 1) :
    (validSquare m.s1 → validSquare m.s2 → ∃ p1, pos.Update boardUpdate m = some p1) ∧
    ∀ p1, pos.Update boardUpdate m = some p1 →
      (p1.halfMoveClock = 0 ↔
        ((pos.board.piece m.s1).Type = PieceType.Pawn ∨ m.HasTag MoveTag.Capture = true ∨
          pos.CastleRights ≠ p1.CastleRights)) ∧
      (¬ ((pos.board.piece m.s1).Type = PieceType.Pawn ∨ m.HasTag MoveTag.Capture = true ∨
          pos.CastleRights ≠ p1.CastleRights) →
        p1.halfMoveClock = pos.halfMoveClock + 1) := by
  constructor
  · intro v1 v2
    exact Option.isSome_iff_exists.mp (Update_isSome boardUpdate pos m v1 v2)
  · intro p1 hp
    obtain ⟨-, -, -, hcr, hclock, -, -⟩ := Update_eq_some boardUpdate pos p1 m hp
    have hw : wrapInt (pos.halfMoveClock + 1) = pos.halfMoveClock + 1 :=
      wrapInt_of_range _ (by omega) (by omega)
    simp only [Position.CastleRights, hcr, hclock, hw]
    constructor
    · constructor
      · intro h
        by_contra hc
        rw [if_neg hc] at h
        omega
      · intro h
        rw [if_pos h]
    · intro hc
      rw [if_neg hc]

/-- Instance of C5: e2-e4 on the starting position resets the clock to 0. -/
theorem Update_halfMoveClock_witness :
    ∃ p1, startPosition.Update relocate e2e4 = some p1 ∧ p1.halfMoveClock = 0 := by
  have h := Update_halfMoveClock relocate startPosition e2e4 (by decide) (by decide)
  obtain ⟨p1, hp⟩ := h.1 (by decide) (by decide)
  exact ⟨p1, hp, ((h.2 p1 hp).1).mpr (Or.inl (by decide))⟩

/-- C6, as the code has it: for every position and every move whose squares are on the board,
`Update` returns; if the piece on the source square is a pawn and either White is to move with
the source on rank 2 and the destination on rank 4, or Black is to move with the source on
rank 7 and the destination on rank 5, the new en-passant square is the square one rank behind
the destination on the destination's file (`m.s2 - 8` for White, `m.s2 + 8` for Black), which
is the intervening square when source and destination are on the same file; for any other
move it is `NoSquare`. -/
theorem Update_enPassantSquare (boardUpdate : Board → Move → Board) (pos : Position) (m : Move)
    (v1 : validSquare m.s1) (v2 : validSquare m.s2) :
    ∃ p1, pos.Update boardUpdate m = some p1 ∧
      ((pos.board.piece m.s1).Type = PieceType.Pawn ∧ pos.turn = Color.White ∧
          rankIndex m.s1 = 1 ∧ rankIndex m.s2 = 3 →
        p1.enPassantSquare = m.s2 - 8 ∧
          (fileIndex m.s1 = fileIndex m.s2 → intervening m.s1 m.s2 p1.enPassantSquare)) ∧
      ((pos.board.piece m.s1).Type = PieceType.Pawn ∧ pos.turn = Color.Black ∧
          rankIndex m.s1 = 6 ∧ rankIndex m.s2 = 4 →
        p1.enPassantSquare = m.s2 + 8 ∧
          (fileIndex m.s1 = fileIndex m.s2 → intervening m.s1 m.s2 p1.enPassantSquare)) ∧
      (¬ ((pos.board.piece m.s1).Type = PieceType.Pawn ∧
          ((pos.turn = Color.White ∧ rankIndex m.s1 = 1 ∧ rankIndex m.s2 = 3) ∨
            (pos.turn = Color.Black ∧ rankIndex m.s1 = 6 ∧ rankIndex m.s2 = 4))) →
        p1.enPassantSquare = NoSquare) := by
  obtain ⟨p1, hp⟩ := Option.isSome_iff_exists.mp (Update_isSome boardUpdate pos m v1 v2)
  obtain ⟨hep, -⟩ := Update_eq_some boardUpdate pos p1 m hp
  rw [updateEnPassantSquare_valid pos m v1 v2, Option.some.injEq] at hep
  obtain ⟨a1, b1⟩ := v1
  obtain ⟨a2, b2⟩ := v2
  have a1i : (0 : Int) ≤ m.s1 := a1
  have a2i : (0 : Int) ≤ m.s2 := a2
  have b1i : m.s1 < (64 : Int) := b1
  have b2i : m.s2 < (64 : Int) := b2
  refine ⟨p1, hp, ?_, ?_, ?_⟩
  · intro hw
    rw [if_pos hw] at hep
    refine ⟨hep.symm, ?_⟩
    obtain ⟨-, -, r1, r3⟩ := hw
    intro hf
    rw [← hep]
    unfold intervening
    unfold fileIndex at hf ⊢
    unfold rankIndex at r1 r3 ⊢
    omega
  · intro hb
    have hnw : ¬ ((pos.board.piece m.s1).Type = PieceType.Pawn ∧ pos.turn = Color.White ∧
        rankIndex m.s1 = 1 ∧ rankIndex m.s2 = 3) := by
      intro hw
      rw [hb.2.1] at hw
      exact Color.noConfusion hw.2.1
    rw [if_neg hnw, if_pos hb] at hep
    refine ⟨hep.symm, ?_⟩
    obtain ⟨-, -, r6, r4⟩ := hb
    intro hf
    rw [← hep]
    unfold intervening
    unfold fileIndex at hf ⊢
    unfold rankIndex at r6 r4 ⊢
    omega
  · intro hn
    rw [if_neg (fun hw => hn ⟨hw.1, Or.inl hw.2⟩),
      if_neg (fun hb => hn ⟨hb.1, Or.inr hb.2⟩)] at hep
    exact hep.symm

/-- Instance of the amended C6: e2-e4 on the starting position sets the en-passant square to
e3, square 20. -/
theorem Update_enPassantSquare_witness :
    ∃ p1, startPosition.Update relocate e2e4 = some p1 ∧ p1.enPassantSquare = 20 ∧
      intervening 12 28 p1.enPassantSquare := by
  obtain ⟨p1, hp, hw, -, -⟩ :=
    Update_enPassantSquare relocate startPosition e2e4 (by decide) (by decide)
  have h := hw (by decide)
  exact ⟨p1, hp, h.1, h.2 (by decide)⟩

/-- C6 fails as stated: with White to move, the unvalidated pawn move a2-b4 goes from rank 2 to
rank 4, and `Update` sets the en-passant square to b3 (square 17), which is neither a square
between source and destination nor `NoSquare`. -/
theorem Update_enPassantSquare_counterexample :
    (startPosition.board.piece a2b4.s1).Type = PieceType.Pawn ∧
      startPosition.turn = Color.White ∧ rankIndex a2b4.s1 = 1 ∧ rankIndex a2b4.s2 = 3 ∧
      (startPosition.Update relocate a2b4).map (fun p1 => p1.enPassantSquare) = some 17 ∧
      ¬ intervening a2b4.s1 a2b4.s2 17 ∧ (17 : Square) ≠ NoSquare := by
  refine ⟨by decide, by decide, by decide, by decide, by decide, by decide, by decide⟩

/-- C7: `Update` returns on every move whose squares are on the board, and whenever it
returns, each castling flag is present afterwards exactly when it was present before and was
not revoked: White-kingside is revoked iff the moving piece is the white king or the source is
h1, White-queenside iff the white king or a1, Black-kingside iff the black king or h8,
Black-queenside iff the black king or a8. A white-king move clears both White flags. -/
theorem Update_castleRights_flags (boardUpdate : Board → Move → Board) (pos : Position)
    (m : Move) :
    (validSquare m.s1 → validSquare m.s2 → ∃ p1, pos.Update boardUpdate m = some p1) ∧
    ∀ p1, pos.Update boardUpdate m = some p1 →
      (CastleRights.CanCastle p1.CastleRights Color.White KingSide = true ↔
        CastleRights.CanCastle pos.CastleRights Color.White KingSide = true ∧
          ¬ (pos.board.piece m.s1 = Piece.WhiteKing ∨ m.s1 = H1)) ∧
      (CastleRights.CanCastle p1.CastleRights Color.White QueenSide = true ↔
        CastleRights.CanCastle pos.CastleRights Color.White QueenSide = true ∧
          ¬ (pos.board.piece m.s1 = Piece.WhiteKing ∨ m.s1 = A1)) ∧
      (CastleRights.CanCastle p1.CastleRights Color.Black KingSide = true ↔
        CastleRights.CanCastle pos.CastleRights Color.Black KingSide = true ∧
          ¬ (pos.board.piece m.s1 = Piece.BlackKing ∨ m.s1 = H8)) ∧
      (CastleRights.CanCastle p1.CastleRights Color.Black QueenSide = true ↔
        CastleRights.CanCastle pos.CastleRights Color.Black QueenSide = true ∧
          ¬ (pos.board.piece m.s1 = Piece.BlackKing ∨ m.s1 = A8)) ∧
      (pos.board.piece m.s1 = Piece.WhiteKing →
        CastleRights.CanCastle p1.CastleRights Color.White KingSide = false ∧
          CastleRights.CanCastle p1.CastleRights Color.White QueenSide = false) := by
  constructor
  · intro v1 v2
    exact Option.isSome_iff_exists.mp (Update_isSome boardUpdate pos m v1 v2)
  · intro p1 hp
    obtain ⟨-, -, -, hcr, -⟩ := Update_eq_some boardUpdate pos p1 m hp
    have hK := mem_updateCastleRights pos m 'K' (by decide)
    have hQ := mem_updateCastleRights pos m 'Q' (by decide)
    have hk := mem_updateCastleRights pos m 'k' (by decide)
    have hq := mem_updateCastleRights pos m 'q' (by decide)
    have eK : CastleRights.CanCastle p1.CastleRights Color.White KingSide = true ↔
        CastleRights.CanCastle pos.CastleRights Color.White KingSide = true ∧
          ¬ (pos.board.piece m.s1 = Piece.WhiteKing ∨ m.s1 = H1) := by
      simp only [CanCastle_iff, Position.CastleRights, hcr]
      simpa [KingSide, QueenSide] using hK
    have eQ : CastleRights.CanCastle p1.CastleRights Color.White QueenSide = true ↔
        CastleRights.CanCastle pos.CastleRights Color.White QueenSide = true ∧
          ¬ (pos.board.piece m.s1 = Piece.WhiteKing ∨ m.s1 = A1) := by
      simp only [CanCastle_iff, Position.CastleRights, hcr]
      simpa [KingSide, QueenSide] using hQ
    have ek : CastleRights.CanCastle p1.CastleRights Color.Black KingSide = true ↔
        CastleRights.CanCastle pos.CastleRights Color.Black KingSide = true ∧
          ¬ (pos.board.piece m.s1 = Piece.BlackKing ∨ m.s1 = H8) := by
      simp only [CanCastle_iff, Position.CastleRights, hcr]
      simpa [KingSide, QueenSide] using hk
    have eq : CastleRights.CanCastle p1.CastleRights Color.Black QueenSide = true ↔
        CastleRights.CanCastle pos.CastleRights Color.Black QueenSide = true ∧
          ¬ (pos.board.piece m.s1 = Piece.BlackKing ∨ m.s1 = A8) := by
      simp only [CanCastle_iff, Position.CastleRights, hcr]
      simpa [KingSide, QueenSide] using hq
    refine ⟨eK, eQ, ek, eq, ?_⟩
    intro hking
    constructor
    · rw [← Bool.not_eq_true, eK]
      exact fun h => h.2 (Or.inl hking)
    · rw [← Bool.not_eq_true, eQ]
      exact fun h => h.2 (Or.inl hking)

/-- Instance of C7: the king move e1-e2 after 1. e4 e5 clears both White flags. -/
theorem Update_castleRights_flags_witness :
    ∃ p1, openPosition.Update relocate e1e2 = some p1 ∧
      CastleRights.CanCastle p1.CastleRights Color.White KingSide = false ∧
      CastleRights.CanCastle p1.CastleRights Color.White QueenSide = false := by
  have h := Update_castleRights_flags relocate openPosition e1e2
  obtain ⟨p1, hp⟩ := h.1 (by decide) (by decide)
  exact ⟨p1, hp, (h.2 p1 hp).2.2.2.2 (by decide)⟩

/-- C8: `Update` returns on every move whose squares are on the board, and whenever it returns,
castling rights have not grown: for every color and side, a right held afterwards was held
before; and rights that were "-" are "-" afterwards. -/
theorem Update_castleRights_shrink (boardUpdate : Board → Move → Board) (pos : Position)
    (m : Move) :
    (validSquare m.s1 → validSquare m.s2 → ∃ p1, pos.Update boardUpdate m = some p1) ∧
    ∀ p1, pos.Update boardUpdate m = some p1 →
      (∀ (c : Color) (side : Side),
        CastleRights.CanCastle p1.CastleRights c side = true →
          CastleRights.CanCastle pos.CastleRights c side = true) ∧
      (pos.CastleRights = ['-'] → p1.CastleRights = ['-']) := by
  constructor
  · intro v1 v2
    exact Option.isSome_iff_exists.mp (Update_isSome boardUpdate pos m v1 v2)
  · intro p1 hp
    obtain ⟨-, -, -, hcr, -⟩ := Update_eq_some boardUpdate pos p1 m hp
    constructor
    · intro c side
      simp only [CanCastle_iff, Position.CastleRights, hcr]
      intro h
      refine ((mem_updateCastleRights pos m _ ?_).mp h).1
      cases c <;> by_cases hs : side = QueenSide <;> simp [hs]
    · intro h
      simp only [Position.CastleRights] at h ⊢
      have hK : Replace ['-'] ['K'] [] = ['-'] := by decide
      have hQ : Replace ['-'] ['Q'] [] = ['-'] := by decide
      have hk : Replace ['-'] ['k'] [] = ['-'] := by decide
      have hq : Replace ['-'] ['q'] [] = ['-'] := by decide
      rw [hcr]
      unfold Position.updateCastleRights
      simp [h, hK, hQ, hk, hq]

/-- Instance of C8: after g1-f3 on the starting position no right has been gained. -/
theorem Update_castleRights_shrink_witness :
    ∃ p1, startPosition.Update relocate g1f3 = some p1 ∧
      ∀ (c : Color) (side : Side),
        CastleRights.CanCastle p1.CastleRights c side = true →
          CastleRights.CanCastle startPosition.CastleRights c side = true := by
  have h := Update_castleRights_shrink relocate startPosition g1f3
  obtain ⟨p1, hp⟩ := h.1 (by decide) (by decide)
  exact ⟨p1, hp, (h.2 p1 hp).1⟩

/-- C9: for every position whose full-move number is an `int` below the largest one and every
move, `Update` returns on every move whose squares are on the board, and whenever it returns,
the turn is the other color, and the full-move number is the old one plus one when Black was to
move and the old one when White was to move. -/
theorem Update_turn_moveCount (boardUpdate : Board → Move → Board) (pos : Position) (m : Move)
    (h0 : -(2 ^ 63) ≤ pos.moveCount) (h1 : pos.moveCount < 2 ^ 63 - 1) :
    (validSquare m.s1 → validSquare m.s2 → ∃ p1, pos.Update boardUpdate m = some p1) ∧
    ∀ p1, pos.Update boardUpdate m = some p1 →
      p1.Turn = pos.Turn.Other ∧ p1.Turn ≠ pos.Turn ∧
      (pos.Turn = Color.Black → p1.moveCount = pos.moveCount + 1) ∧
      (pos.Turn = Color.White → p1.moveCount = pos.moveCount) := by
  constructor
  · intro v1 v2
    exact Option.isSome_iff_exists.mp (Update_isSome boardUpdate pos m v1 v2)
  · intro p1 hp
    obtain ⟨-, -, hturn, -, -, hcount, -⟩ := Update_eq_some boardUpdate pos p1 m hp
    have hw : wrapInt (pos.moveCount + 1) = pos.moveCount + 1 :=
      wrapInt_of_range _ (by omega) (by omega)
    simp only [Position.Turn, hturn, hcount, hw]
    refine ⟨trivial, ?_, ?_, ?_⟩
    · cases pos.turn <;> simp [Color.Other]
    · intro hb
      rw [if_pos hb]
    · intro hwhite
      rw [if_neg (by rw [hwhite]; exact fun e => Color.noConfusion e)]

/-- Instance of C9: after e2-e4 on the starting position it is Black's turn and the full-move
number is still 1. -/
theorem Update_turn_moveCount_witness :
    ∃ p1, startPosition.Update relocate e2e4 = some p1 ∧
      p1.Turn = Color.Black ∧ p1.moveCount = 1 := by
  have h := Update_turn_moveCount relocate startPosition e2e4 (by decide) (by decide)
  obtain ⟨p1, hp⟩ := h.1 (by decide) (by decide)
  exact ⟨p1, hp, (h.2 p1 hp).1, (h.2 p1 hp).2.2.2 rfl⟩

/-! ## Status -/

/-- C10: for every position, with the check detection and the move generator as given, and `n`
the length of the slice `ValidMoves` returns: `Status` is Checkmate iff the side to move is in
check and `n = 0`, Stalemate iff it is not in check and `n = 0`, NoMethod iff `n > 0`. -/
theorem Status_iff (inCheck : Position → Bool)
    (getValidMoves : Position → bitboard → getType → Bool → MoveSlice) (pos : Position) :
    ((pos.Status inCheck getValidMoves).1 = Method.Checkmate ↔
        inCheck pos = true ∧ (pos.ValidMoves getValidMoves).1.len = 0) ∧
    ((pos.Status inCheck getValidMoves).1 = Method.Stalemate ↔
        inCheck pos = false ∧ (pos.ValidMoves getValidMoves).1.len = 0) ∧
    ((pos.Status inCheck getValidMoves).1 = Method.NoMethod ↔
        (pos.ValidMoves getValidMoves).1.len > 0) := by
  unfold Position.Status
  cases hc : inCheck pos <;>
    by_cases hn : (pos.ValidMoves getValidMoves).1.len = 0 <;>
    simp [hn, Nat.pos_iff_ne_zero]

/-! ## Repetition equality and decoding -/

/-- C11: for all positions `p` and `q`, `p.samePosition(q)` is true if and only if their board
layouts (the strings of their boards), turns, castling rights and en-passant squares all match,
and the result does not change when the half-move clock or the full-move number of `p` or of
`q` is changed. -/
theorem samePosition_iff (boardString : Board → List Char) (p q : Position) :
    (p.samePosition boardString q = true ↔
      boardString p.board = boardString q.board ∧ p.turn = q.turn ∧
        p.castleRights = q.castleRights ∧ p.enPassantSquare = q.enPassantSquare) ∧
    ∀ h1 c1 h2 c2 : Int,
      Position.samePosition boardString
          { p with halfMoveClock := h1, moveCount := c1 }
          { q with halfMoveClock := h2, moveCount := c2 }
        = p.samePosition boardString q := by
  constructor
  · simp [Position.samePosition, CastleRights.String, and_assoc]
  · intro h1 c1 h2 c2
    rfl

/-- C12: for every position and every text, if decoding fails `UnmarshalText` returns the
error and leaves the position as it was, every field included; if decoding succeeds it returns
no error and the board, turn, castling rights, en-passant square, half-move clock and
full-move number are those of the decoded position. -/
theorem UnmarshalText_spec (decodeFEN : List Char → Except (List Char) Position)
    (pos : Position) (text : List Char) :
    (∀ err, decodeFEN text = Except.error err →
      pos.UnmarshalText decodeFEN text = (some err, pos)) ∧
    (∀ cp, decodeFEN text = Except.ok cp →
      (pos.UnmarshalText decodeFEN text).1 = none ∧
      (pos.UnmarshalText decodeFEN text).2.board = cp.board ∧
      (pos.UnmarshalText decodeFEN text).2.turn = cp.turn ∧
      (pos.UnmarshalText decodeFEN text).2.castleRights = cp.castleRights ∧
      (pos.UnmarshalText decodeFEN text).2.enPassantSquare = cp.enPassantSquare ∧
      (pos.UnmarshalText decodeFEN text).2.halfMoveClock = cp.halfMoveClock ∧
      (pos.UnmarshalText decodeFEN text).2.moveCount = cp.moveCount) := by
  constructor
  · intro err h
    simp [Position.UnmarshalText, h]
  · intro cp h
    simp [Position.UnmarshalText, h]

/-- Instance of C12: on the starting position, a rejected text leaves the position as it was,
and the record of the position after 1. e4 puts Black to move with en-passant square e3. -/
theorem UnmarshalText_spec_witness :
    (startPosition.UnmarshalText (decodeOnly afterE4Record afterE4Position) ['x']
        = (some "chess: fen invalid".toList, startPosition)) ∧
    (startPosition.UnmarshalText (decodeOnly afterE4Record afterE4Position) afterE4Record).2.turn
        = Color.Black ∧
    (startPosition.UnmarshalText
        (decodeOnly afterE4Record afterE4Position) afterE4Record).2.enPassantSquare = 20 := by
  have hbad := (UnmarshalText_spec (decodeOnly afterE4Record afterE4Position)
    startPosition ['x']).1 "chess: fen invalid".toList
    (by rw [decodeOnly, if_neg (by decide)])
  have hgood := (UnmarshalText_spec (decodeOnly afterE4Record afterE4Position)
    startPosition afterE4Record).2 afterE4Position (by rw [decodeOnly, if_pos rfl])
  exact ⟨hbad, hgood.2.2.1, hgood.2.2.2.2.1⟩

/-! ## The cache of legal moves -/

theorem ValidMovesCounted_eq (getValidMoves : Position → bitboard → getType → Bool → MoveSlice)
    (pos : Position) (runs : Nat) :
    (pos.ValidMovesCounted getValidMoves runs).1 = (pos.ValidMoves getValidMoves).1 ∧
      (pos.ValidMovesCounted getValidMoves runs).2.1 = (pos.ValidMoves getValidMoves).2 := by
  unfold Position.ValidMovesCounted Position.ValidMoves
  cases pos.validMoves <;> exact ⟨rfl, rfl⟩

theorem ValidMovesRepeat_cached (getValidMoves : Position → bitboard → getType → Bool → MoveSlice)
    (pos : Position) (l : List Move) (h : pos.validMoves = some l) (k runs : Nat) :
    pos.ValidMovesRepeat getValidMoves k runs
      = (List.replicate k (MoveSlice.copy (some l)), pos, runs) := by
  induction k with
  | zero => rfl
  | succ k ih =>
    have hc : pos.ValidMovesCounted getValidMoves runs = (MoveSlice.copy (some l), pos, runs) := by
      unfold Position.ValidMovesCounted
      rw [h]
    simp only [Position.ValidMovesRepeat, hc, ih, List.replicate_succ]

/-- C13: for every Position instance and every move generator whose result on it is a slice
that is not nil, of any length, the empty one included, the legal moves are computed at most
once. On an instance whose cache is not populated, any number `k + 1` of `ValidMoves` calls
runs the generator exactly once: the first call stores the result and every call returns a
copy of the stored sequence. On an instance whose cache is populated no call runs the
generator. The counted calls return what `ValidMoves` returns. -/
theorem ValidMoves_once (getValidMoves : Position → bitboard → getType → Bool → MoveSlice)
    (pos : Position) (k : Nat) :
    (∀ l : List Move, pos.validMoves = none →
      getValidMoves pos pos.s2BB getType.getAll false = some l →
        pos.ValidMovesRepeat getValidMoves (k + 1) 0
            = (List.replicate (k + 1) (MoveSlice.copy (some l)),
                { pos with validMoves := some l }, 1) ∧
          (MoveSlice.copy (some l)).elems = l) ∧
    (∀ l : List Move, pos.validMoves = some l →
      pos.ValidMovesRepeat getValidMoves k 0
        = (List.replicate k (MoveSlice.copy (some l)), pos, 0)) ∧
    ∀ (p : Position) (runs : Nat),
      (p.ValidMovesCounted getValidMoves runs).1 = (p.ValidMoves getValidMoves).1 ∧
        (p.ValidMovesCounted getValidMoves runs).2.1 = (p.ValidMoves getValidMoves).2 := by
  refine ⟨?_, ?_, fun p runs => ValidMovesCounted_eq getValidMoves p runs⟩
  · intro l hfresh hgen
    constructor
    · have hc : pos.ValidMovesCounted getValidMoves 0
          = (MoveSlice.copy (some l), { pos with validMoves := some l }, 1) := by
        unfold Position.ValidMovesCounted
        unfold Position.s2BB at hgen
        rw [hfresh]
        simp only [hgen, Nat.zero_add]
      have hr := ValidMovesRepeat_cached getValidMoves { pos with validMoves := some l } l rfl k 1
      simp only [Position.ValidMovesRepeat, hc, hr, List.replicate_succ]
    · cases l <;> rfl
  · intro l hl
    exact ValidMovesRepeat_cached getValidMoves pos l hl k 0

/-- Instance of C13: three calls on the starting position run the generator once and return
its one move each time; three calls on a position without legal move, with a generator that
returns the empty slice, run the generator once as well. -/
theorem ValidMoves_once_witness :
    startPosition.ValidMovesRepeat genByTurn 3 0
        = ([some [e2e4], some [e2e4], some [e2e4]],
            { startPosition with validMoves := some [e2e4] }, 1) ∧
      foolsMatePosition.ValidMovesRepeat genEmpty 3 0
        = ([none, none, none], { foolsMatePosition with validMoves := some [] }, 1) :=
  ⟨((ValidMoves_once genByTurn startPosition 2).1 [e2e4] rfl rfl).1,
    ((ValidMoves_once genEmpty foolsMatePosition 2).1 [] rfl rfl).1⟩

/-! ## Totality of the bitboard functions -/

theorem newBitboardString_eq (m : SquareMap) :
    newBitboardString m = (List.range 64).map (fun (i : Nat) => bitChar (m.get (i : Int))) := by
  have hf : (fun (s : List Char) (sq : Nat) => if m.get (sq : Int) then s ++ ['1'] else s ++ ['0'])
      = (fun (s : List Char) (sq : Nat) => s ++ [bitChar (m.get (sq : Int))]) := by
    funext s sq
    cases h : m.get (sq : Int) <;> simp [bitChar]
  unfold newBitboardString
  rw [hf, foldl_snoc_eq_map, List.nil_append]
  rfl

theorem mapping_fold_eq (g : Nat → Bool) (s : List Char)
    (hs : ∀ i, i < 64 → sliceStr s i (i + 1) = some [bitChar (g i)]) (k : Nat) (hk : k ≤ 64) :
    (List.range k).foldl
        (fun (acc : Option SquareMap) (sq : Nat) =>
          acc.bind fun m =>
            (sliceStr s sq (sq + 1)).map fun c =>
              if c = ['1'] then m.set (sq : Int) true else m)
        (some [])
      = some ((((List.range k).filter g).reverse).map (fun (i : Nat) => ((i : Int), true))) := by
  induction k with
  | zero => rfl
  | succ k ih =>
    rw [List.range_succ, List.foldl_append, ih (by omega)]
    simp only [List.foldl_cons, List.foldl_nil, Option.some_bind, hs k (by omega), Option.map_some',
      List.filter_append]
    cases hg : g k
    · have hne : ¬ ([bitChar false] = ['1']) := by simp [bitChar]
      rw [if_neg hne]
      simp [List.filter_cons, hg]
    · have he : [bitChar true] = ['1'] := by simp [bitChar]
      rw [if_pos he]
      have hkeep : ((((List.range k).filter g).reverse).map
            (fun (i : Nat) => ((i : Int), true))).filter (fun e => e.1 != (k : Int))
          = (((List.range k).filter g).reverse).map (fun (i : Nat) => ((i : Int), true)) := by
        rw [List.filter_eq_self]
        intro e he
        obtain ⟨i, hi, rfl⟩ := List.mem_map.mp he
        have hik : i < k := List.mem_range.mp (List.mem_filter.mp (List.mem_reverse.mp hi)).1
        have : (i : Int) ≠ (k : Int) := by omega
        simpa using this
      unfold SquareMap.set
      rw [hkeep]
      simp [List.filter_cons, hg]

theorem Mapping_eq (b : bitboard) :
    bitboard.Mapping b = some ((((List.range 64).filter
      (fun i => (b % 2 ^ 64).testBit (63 - i))).reverse).map
        (fun (i : Nat) => ((i : Int), true))) := by
  have hs : ∀ i, i < 64 → sliceStr (fixedBits 64 (b % 2 ^ 64)) i (i + 1)
      = some [bitChar ((b % 2 ^ 64).testBit (64 - 1 - i))] :=
    fun i hi => sliceStr_map _ 64 i hi
  have h := mapping_fold_eq (fun i => (b % 2 ^ 64).testBit (64 - 1 - i))
    (fixedBits 64 (b % 2 ^ 64)) hs 64 (le_refl _)
  unfold bitboard.Mapping
  rw [String_eq, Option.some_bind]
  exact h

/-- C14: for every mapping, the string `newBitboard` builds is exactly 64 characters, each
'0' or '1'; `strconv.ParseUint` accepts it, so `newBitboard` returns and never reaches its
panic branch. -/
theorem newBitboard_total (m : SquareMap) :
    (newBitboardString m).length = 64 ∧
      (∀ c ∈ newBitboardString m, c = '0' ∨ c = '1') ∧
      newBitboard m = ParseUint (newBitboardString m) ∧
      (ParseUint (newBitboardString m)).isSome = true ∧
      (newBitboard m).isSome = true := by
  have he : newBitboard m = ParseUint (newBitboardString m) := rfl
  refine ⟨?_, ?_, he, ?_, ?_⟩
  · rw [newBitboardString_eq]
    simp
  · intro c hc
    rw [newBitboardString_eq] at hc
    obtain ⟨i, -, rfl⟩ := List.mem_map.mp hc
    cases h : m.get (i : Int) <;> simp [bitChar]
  · rw [← he, newBitboard_eq]
    rfl
  · rw [newBitboard_eq]
    rfl

/-- C15, as the code has it: for every bitboard value `b`, `b.Mapping()` returns, and the map
holds exactly one entry, with value true, for each occupied square of 0..63 and no entry for
an unoccupied one: as many entries as `b` has occupied squares, at most 64. Read with the
default false, it gives `b.Occupied(s)` at every square `s` of 0..63. -/
theorem Mapping_entries (b : bitboard) :
    ∃ m, bitboard.Mapping b = some m ∧
      (∀ (q : Square) (v : Bool),
        (q, v) ∈ m ↔ (v = true ∧ validSquare q ∧ bitboard.Occupied b q = true)) ∧
      (m.map Prod.fst).Nodup ∧
      m.length = ((List.range 64).filter (fun (i : Nat) => bitboard.Occupied b (i : Int))).length ∧
      m.length ≤ 64 ∧
      ∀ s : Square, validSquare s → m.get s = bitboard.Occupied b s := by
  have hocc : ∀ i : Nat, i < 64 →
      (b % 2 ^ 64).testBit (63 - i) = bitboard.Occupied b (i : Int) :=
    fun i hi => (Occupied_eq_testBit b i hi).symm
  have hfilter : (List.range 64).filter (fun i => (b % 2 ^ 64).testBit (63 - i))
      = (List.range 64).filter (fun (i : Nat) => bitboard.Occupied b (i : Int)) := by
    apply List.filter_congr
    intro i hi
    exact hocc i (List.mem_range.mp hi)
  refine ⟨_, Mapping_eq b, ?_, ?_, ?_, ?_, ?_⟩
  · intro q v
    simp only [List.mem_map, List.mem_reverse, List.mem_filter, List.mem_range, Prod.mk.injEq]
    constructor
    · rintro ⟨i, ⟨hi, ht⟩, rfl, rfl⟩
      have hlt : (i : Int) < 64 := by omega
      refine ⟨rfl, ⟨Int.ofNat_nonneg i, hlt⟩, ?_⟩
      rw [← hocc i hi]
      exact ht
    · rintro ⟨rfl, ⟨h0, h1⟩, ho⟩
      obtain ⟨n, rfl⟩ := Int.eq_ofNat_of_zero_le h0
      have h1i : (n : Int) < 64 := h1
      have hn : n < 64 := by omega
      exact ⟨n, ⟨hn, by rw [hocc n hn]; exact ho⟩, rfl, rfl⟩
  · rw [List.map_map]
    have hinj : Function.Injective (Prod.fst ∘ fun (i : Nat) => ((i : Int), true)) := by
      intro x y hxy
      exact Int.ofNat.inj hxy
    exact (List.nodup_reverse.mpr ((List.nodup_range 64).filter _)).map hinj
  · rw [List.length_map, List.length_reverse, hfilter]
  · rw [List.length_map, List.length_reverse]
    calc ((List.range 64).filter (fun i => (b % 2 ^ 64).testBit (63 - i))).length
        ≤ (List.range 64).length := List.length_filter_le _ _
      _ = 64 := List.length_range 64
  · intro s hs
    obtain ⟨m, hm, hget⟩ := Mapping_spec b
    rw [Mapping_eq] at hm
    rw [Option.some.injEq] at hm
    rw [hm, hget]
    obtain ⟨h0, h1⟩ := hs
    obtain ⟨n, rfl⟩ := Int.eq_ofNat_of_zero_le h0
    have h1i : (n : Int) < 64 := h1
    have hn : n < 64 := by omega
    have hv : (0 : Int) ≤ (n : Int) ∧ (n : Int) < 64 := ⟨h0, h1i⟩
    rw [← hocc n hn]
    simp [hv]

/-- Instance of the amended C15: the map of the bitboard 5 has two entries, for the squares
61 and 63. -/
theorem Mapping_entries_witness :
    ∃ m, bitboard.Mapping 5 = some m ∧ m.length = 2 ∧
      m.get 61 = true ∧ m.get 62 = false ∧ m.get 63 = true := by
  obtain ⟨m, hm, -, -, hlen, -, hget⟩ := Mapping_entries 5
  refine ⟨m, hm, ?_, ?_, ?_, ?_⟩
  · rw [hlen]
    decide
  · rw [hget 61 (by decide)]
    decide
  · rw [hget 62 (by decide)]
    decide
  · rw [hget 63 (by decide)]
    decide

/-- C15 fails as stated: the map of the empty bitboard holds no entry at all, not 64. -/
theorem Mapping_entries_counterexample :
    (bitboard.Mapping 0).map List.length = some 0 := by
  rw [Mapping_eq]
  decide

/-- C17: for every 64-bit bitboard value `b`, the binary digits of `b` are at most 64, so the
padding count is not negative, and `b.String()` returns a string of exactly 64 characters, each
'0' or '1', whose character `i` is '1' iff `b.Occupied(i)`, for every `i` of 0..63. -/
theorem String_spec (b : bitboard) (hb : b < 2 ^ 64) :
    (FormatUint b).length ≤ 64 ∧
      ∃ s, bitboard.String b = some s ∧ s.length = 64 ∧
        (∀ c ∈ s, c = '0' ∨ c = '1') ∧
        ∀ i : Nat, i < 64 → (s[i]? = some '1' ↔ bitboard.Occupied b (i : Int) = true) := by
  have hmod : b % 2 ^ 64 = b := Nat.mod_eq_of_lt hb
  constructor
  · exact (FormatUint_pad 63 b hb).1
  · refine ⟨_, String_eq b, fixedBits_length 64 _, ?_, ?_⟩
    · intro c hc
      unfold fixedBits at hc
      obtain ⟨i, -, rfl⟩ := List.mem_map.mp hc
      cases h : (b % 2 ^ 64).testBit (64 - 1 - i) <;> simp [bitChar]
    · intro i hi
      rw [Occupied_eq_testBit b i hi]
      unfold fixedBits
      rw [List.getElem?_map, List.getElem?_range hi]
      have e : 64 - 1 - i = 63 - i := by omega
      rw [Option.map_some', e]
      generalize (b % 2 ^ 64).testBit (63 - i) = t
      cases t <;> simp [bitChar]

/-- Instance of C17: the string of the bitboard 5 has 64 characters. -/
theorem String_spec_witness :
    5 < 2 ^ 64 ∧ (FormatUint 5).length ≤ 64 ∧
      ∃ s, bitboard.String 5 = some s ∧ s.length = 64 ∧
        (∀ c ∈ s, c = '0' ∨ c = '1') ∧
        ∀ i : Nat, i < 64 → (s[i]? = some '1' ↔ bitboard.Occupied 5 (i : Int) = true) :=
  ⟨by decide, String_spec 5 (by decide)⟩

/-! ## The cache across `UnmarshalText` -/

theorem UnmarshalText_validMoves (decodeFEN : List Char → Except (List Char) Position)
    (pos : Position) (text : List Char) :
    (pos.UnmarshalText decodeFEN text).2.validMoves = pos.validMoves := by
  unfold Position.UnmarshalText
  cases decodeFEN text <;> rfl

theorem copy_validMoves (pos : Position) : pos.copy.validMoves = none := rfl

theorem Update_validMoves (boardUpdate : Board → Move → Board) (pos p1 : Position) (m : Move)
    (h : pos.Update boardUpdate m = some p1) : p1.validMoves = none :=
  (Update_eq_some boardUpdate pos p1 m h).2.2.2.2.2.2

/-- C18 at a failing input: on the starting position a `ValidMoves` call fills the cache with
White's move; after a successful `UnmarshalText` of the record of the position after 1. e4 the
instance holds a position with Black to move, the cache still holds White's move and
`ValidMoves` returns it, while the move generator yields Black's move for the position the
instance holds. -/
theorem ValidMoves_stale_after_UnmarshalText :
    ((startPosition.ValidMoves genByTurn).2.UnmarshalText
        (decodeOnly afterE4Record afterE4Position) afterE4Record).1 = none ∧
      reloadedPosition.turn = Color.Black ∧
      reloadedPosition.enPassantSquare = 20 ∧
      reloadedPosition.validMoves = some [e2e4] ∧
      (reloadedPosition.ValidMoves genByTurn).1 = some [e2e4] ∧
      genByTurn reloadedPosition reloadedPosition.s2BB getType.getAll false = some [e7e5] := by
  refine ⟨by decide, by decide, by decide, by decide, by decide, by decide⟩

/-! ## Canonical castling rights and the en-passant square on the board -/

theorem updateCastleRights_dash (pos : Position) (m : Move) (h : pos.castleRights = ['-']) :
    pos.updateCastleRights m = ['-'] := by
  have hK : Replace ['-'] ['K'] [] = ['-'] := by decide
  have hQ : Replace ['-'] ['Q'] [] = ['-'] := by decide
  have hk : Replace ['-'] ['k'] [] = ['-'] := by decide
  have hq : Replace ['-'] ['q'] [] = ['-'] := by decide
  unfold Position.updateCastleRights
  simp [h, hK, hQ, hk, hq]

theorem updateCastleRights_cases (pos : Position) (m : Move) :
    pos.updateCastleRights m = ['-'] ∨
      (pos.updateCastleRights m ≠ [] ∧ ∀ x ∈ pos.updateCastleRights m, x ∈ pos.castleRights) := by
  have key : ∀ r : List Char, (∀ x ∈ r, x ∈ pos.castleRights) →
      ((if r = [] then ['-'] else r) = ['-'] ∨
        ((if r = [] then ['-'] else r) ≠ [] ∧
          ∀ x ∈ (if r = [] then ['-'] else r), x ∈ pos.castleRights)) := by
    intro r hr
    by_cases h0 : r = []
    · left
      rw [if_pos h0]
    · right
      rw [if_neg h0]
      exact ⟨h0, hr⟩
  unfold Position.updateCastleRights
  refine key _ ?_
  intro x hx
  simp only [mem_ite_Replace] at hx
  exact hx.1.1.1.1

theorem CanCastle_dash (c : Color) (side : Side) :
    CastleRights.CanCastle ['-'] c side = false := by
  rw [← Bool.not_eq_true, CanCastle_iff]
  cases c <;> by_cases hs : side = QueenSide <;> simp [hs]

theorem CanCastle_of_mem (cr : CastleRights) (x : Char) (hx : x ∈ cr)
    (hl : x = 'K' ∨ x = 'Q' ∨ x = 'k' ∨ x = 'q') :
    ∃ (c : Color) (side : Side), CastleRights.CanCastle cr c side = true := by
  rcases hl with rfl | rfl | rfl | rfl
  · exact ⟨Color.White, KingSide, (CanCastle_iff cr _ _).mpr (by simpa [KingSide, QueenSide] using hx)⟩
  · exact ⟨Color.White, QueenSide, (CanCastle_iff cr _ _).mpr (by simpa using hx)⟩
  · exact ⟨Color.Black, KingSide, (CanCastle_iff cr _ _).mpr (by simpa [KingSide, QueenSide] using hx)⟩
  · exact ⟨Color.Black, QueenSide, (CanCastle_iff cr _ _).mpr (by simpa using hx)⟩

/-- C19: for every position whose castling rights are "-" or a non-empty string over K, Q, k,
q, and every move, `Update` returns on every move whose squares are on the board, and whenever
it returns, the new castling rights are again "-" or a non-empty string over K, Q, k, q, never
the empty string, and they are "-" exactly when no castling flag remains. -/
theorem Update_castleRights_canonical (boardUpdate : Board → Move → Board) (pos : Position)
    (m : Move) (hc : canonicalRights pos.CastleRights) :
    (validSquare m.s1 → validSquare m.s2 → ∃ p1, pos.Update boardUpdate m = some p1) ∧
    ∀ p1, pos.Update boardUpdate m = some p1 →
      canonicalRights p1.CastleRights ∧ p1.CastleRights ≠ [] ∧
      (p1.CastleRights = ['-'] ↔
        ∀ (c : Color) (side : Side), CastleRights.CanCastle p1.CastleRights c side = false) := by
  constructor
  · intro v1 v2
    exact Option.isSome_iff_exists.mp (Update_isSome boardUpdate pos m v1 v2)
  · intro p1 hp
    obtain ⟨-, -, -, hcr, -⟩ := Update_eq_some boardUpdate pos p1 m hp
    simp only [Position.CastleRights] at hc ⊢
    rw [hcr]
    have hdashcase : pos.updateCastleRights m = ['-'] →
        canonicalRights (pos.updateCastleRights m) ∧ pos.updateCastleRights m ≠ [] ∧
        (pos.updateCastleRights m = ['-'] ↔
          ∀ (c : Color) (side : Side),
            CastleRights.CanCastle (pos.updateCastleRights m) c side = false) := by
      intro h
      rw [h]
      exact ⟨Or.inl rfl, by simp, fun _ => CanCastle_dash, fun _ => rfl⟩
    rcases hc with hdash | ⟨-, hall⟩
    · exact hdashcase (updateCastleRights_dash pos m hdash)
    · rcases updateCastleRights_cases pos m with h1 | ⟨hne, hsub⟩
      · exact hdashcase h1
      · have hletters : ∀ x ∈ pos.updateCastleRights m,
            x = 'K' ∨ x = 'Q' ∨ x = 'k' ∨ x = 'q' := fun x hx => hall x (hsub x hx)
        refine ⟨Or.inr ⟨hne, hletters⟩, hne, ?_⟩
        constructor
        · intro h
          have hmem : '-' ∈ pos.updateCastleRights m := by rw [h]; simp
          exact absurd (hletters '-' hmem) (by decide)
        · intro hnone
          obtain ⟨x, hx⟩ := List.exists_mem_of_ne_nil _ hne
          obtain ⟨c, side, hcan⟩ := CanCastle_of_mem _ x hx (hletters x hx)
          rw [hnone c side] at hcan
          exact absurd hcan (by decide)

/-- Instance of C19: after the king move e1-e2 in the position after 1. e4 e5 the rights are
canonical and not "-". -/
theorem Update_castleRights_canonical_witness :
    ∃ p1, openPosition.Update relocate e1e2 = some p1 ∧
      canonicalRights p1.CastleRights ∧ p1.CastleRights ≠ [] := by
  have h := Update_castleRights_canonical relocate openPosition e1e2
    (Or.inr ⟨by decide, by decide⟩)
  obtain ⟨p1, hp⟩ := h.1 (by decide) (by decide)
  exact ⟨p1, hp, (h.2 p1 hp).1, (h.2 p1 hp).2.1⟩

/-- C20: for every position and every move whose source and destination squares are in
`[0,64)`, `Update` returns and the new en-passant square is either `NoSquare` or a square of
`[0,64)` on the file of the destination, which is `m.s2 - 8` on rank 3 when White is the mover
and `m.s2 + 8` on rank 6 when Black is the mover. -/
theorem Update_enPassantSquare_onBoard (boardUpdate : Board → Move → Board) (pos : Position)
    (m : Move) (v1 : validSquare m.s1) (v2 : validSquare m.s2) :
    ∃ p1, pos.Update boardUpdate m = some p1 ∧
      (p1.enPassantSquare = NoSquare ∨
        (validSquare p1.enPassantSquare ∧
          fileIndex p1.enPassantSquare = fileIndex m.s2 ∧
          ((pos.turn = Color.White ∧ p1.enPassantSquare = m.s2 - 8 ∧
              rankIndex p1.enPassantSquare = 2) ∨
            (pos.turn = Color.Black ∧ p1.enPassantSquare = m.s2 + 8 ∧
              rankIndex p1.enPassantSquare = 5)))) := by
  obtain ⟨p1, hp⟩ := Option.isSome_iff_exists.mp (Update_isSome boardUpdate pos m v1 v2)
  obtain ⟨hep, -⟩ := Update_eq_some boardUpdate pos p1 m hp
  rw [updateEnPassantSquare_valid pos m v1 v2, Option.some.injEq] at hep
  refine ⟨p1, hp, ?_⟩
  by_cases hw : (pos.board.piece m.s1).Type = PieceType.Pawn ∧ pos.turn = Color.White ∧
      rankIndex m.s1 = 1 ∧ rankIndex m.s2 = 3
  · rw [if_pos hw] at hep
    right
    obtain ⟨-, ht, -, r3⟩ := hw
    rw [← hep]
    unfold validSquare fileIndex rankIndex at *
    have lo : (0 : Int) ≤ m.s2 - 8 := by omega
    have hi : (64 : Int) > m.s2 - 8 := by omega
    exact ⟨⟨lo, hi⟩, by omega, Or.inl ⟨ht, rfl, by omega⟩⟩
  · rw [if_neg hw] at hep
    by_cases hb : (pos.board.piece m.s1).Type = PieceType.Pawn ∧ pos.turn = Color.Black ∧
        rankIndex m.s1 = 6 ∧ rankIndex m.s2 = 4
    · rw [if_pos hb] at hep
      right
      obtain ⟨-, ht, -, r4⟩ := hb
      rw [← hep]
      unfold validSquare fileIndex rankIndex at *
      have lo : (0 : Int) ≤ m.s2 + 8 := by omega
      have hi : (64 : Int) > m.s2 + 8 := by omega
      exact ⟨⟨lo, hi⟩, by omega, Or.inr ⟨ht, rfl, by omega⟩⟩
    · rw [if_neg hb] at hep
      left
      exact hep.symm

/-- Instance of C20: e2-e4 on the starting position gives the en-passant square 20, e3. -/
theorem Update_enPassantSquare_onBoard_witness :
    validSquare e2e4.s1 ∧ validSquare e2e4.s2 ∧
      ∃ p1, startPosition.Update relocate e2e4 = some p1 ∧
        (p1.enPassantSquare = NoSquare ∨
          (validSquare p1.enPassantSquare ∧
            fileIndex p1.enPassantSquare = fileIndex e2e4.s2 ∧
            ((startPosition.turn = Color.White ∧ p1.enPassantSquare = e2e4.s2 - 8 ∧
                rankIndex p1.enPassantSquare = 2) ∨
              (startPosition.turn = Color.Black ∧ p1.enPassantSquare = e2e4.s2 + 8 ∧
                rankIndex p1.enPassantSquare = 5)))) :=
  ⟨by decide, by decide,
    Update_enPassantSquare_onBoard relocate startPosition e2e4 (by decide) (by decide)⟩

end Chess
